import Mathlib

/-!
Verification development for the MarkMind retrieval-augmented streaming chat
orchestrator (`src/server/app/api/chat.py`, `src/server/app/api/graph.py`,
`src/server/app/models.py`).

The Python code is shallowly embedded: pure functions become Lean functions,
the streaming aggregator becomes an explicit fold over an upstream event list,
fallible code returns `Option`, Python `uuid.uuid4()` is modelled as a counter
producing distinct identifiers, and the SurrealDB-backed store is modelled as
an opaque interface record (its methods run network queries).
-/

namespace MarkMind

/-! ## Python value model

`_record_to_id` receives heterogeneous values from the SurrealDB client:
`None`, `RecordID` objects carrying `table_name`/`record_id` attributes,
dictionaries, plain strings, or anything else.  `PyVal` models that union.
`PyVal.other` carries the `str()` rendering of a value of any further shape.
-/

inductive PyVal where
  | none
  | str (s : String)
  | recordId (tableName recordIdPart : String)
  | dict (entries : List (String × PyVal))
  | other (rendered : String)

/-- The single-quote character, used by Python `repr` for strings. -/
def sq : String := String.singleton (Char.ofNat 39)

mutual

/-- Python `repr` of a modelled value (used inside dict renderings). -/
def pyRepr : PyVal → String
  | .none => "None"
  | .str s => sq ++ s ++ sq
  | .recordId t r => t ++ ":" ++ r
  | .dict es => "\x7b" ++ pyEntries es ++ "\x7d"
  | .other r => r

/-- Renders dictionary entries the way Python `repr` does. -/
def pyEntries : List (String × PyVal) → String
  | [] => ""
  | (k, v) :: rest =>
      sq ++ k ++ sq ++ ": " ++ pyRepr v ++
        (if rest.isEmpty then "" else ", ") ++ pyEntries rest

end

/-- Python `str()` of a modelled value: identity on strings, `repr` otherwise. -/
def pyStr : PyVal → String
  | .str s => s
  | v => pyRepr v

/-- Looks a key up in a modelled Python dictionary (`k in d` / `d[k]`). -/
def dictGet (es : List (String × PyVal)) (k : String) : Option PyVal :=
  (es.find? (fun kv => kv.1 == k)).map (·.2)

/-- Embeds `_record_to_id` (identical in `chat.py` lines 55-70 and
`graph.py` lines 46-72).  The `hasattr` branch is the `recordId` case; the
`try` around the f-string cannot fail in the model since attribute reads on a
`RecordID` are total.  Note the source checks `"id" in val` *before*
`"table" in val and "id" in val`, so the second dictionary branch is dead
code; the embedding preserves that order. -/
def record_to_id (val : PyVal) : String :=
  match val with
  | .none => ""
  | .recordId t r => t ++ ":" ++ r
  | .dict es =>
      match dictGet es "id" with
      | some i => pyStr i
      | Option.none =>
          match dictGet es "table", dictGet es "id" with
          | some t, some i => pyStr t ++ ":" ++ pyStr i
          | _, _ => pyStr (.dict es)
  | v => pyStr v

/-! ## JSON model

The orchestrator serializes tool-call arguments with `json.dumps(...)`
(default separators, `ensure_ascii=False`) and parses them with
`json.loads(...)`.  `Json` models the JSON values exchanged there; numeric
literals are modelled as integers (floating-point literals are outside the
model).  `dumps` is the serializer; `loads` is a parser accepting exactly the
serializer's grammar, which is what the round-trip claims range over. -/

inductive Json where
  | null
  | bool (b : Bool)
  | num (n : Int)
  | str (s : String)
  | arr (elems : List Json)
  | obj (fields : List (String × Json))

/-- The double-quote character. -/
def quoteC : Char := Char.ofNat 34

/-- The backslash character. -/
def bsC : Char := Char.ofNat 92

/-- Left curly brace character. -/
def lbraceC : Char := Char.ofNat 123

/-- Right curly brace character. -/
def rbraceC : Char := Char.ofNat 125

/-- The decimal digit character for a value below ten. -/
def digitChar : Nat → Char
  | 0 => '0' | 1 => '1' | 2 => '2' | 3 => '3' | 4 => '4'
  | 5 => '5' | 6 => '6' | 7 => '7' | 8 => '8' | _ => '9'

/-- Decimal digits of `n`, least significant first. -/
def natToRevDigits (n : Nat) : List Char :=
  if h : n < 10 then [digitChar n]
  else digitChar (n % 10) :: natToRevDigits (n / 10)
termination_by n
decreasing_by exact Nat.div_lt_self (by omega) (by omega)

/-- Decimal rendering of a natural number. -/
def natChars (n : Nat) : List Char := (natToRevDigits n).reverse

/-- Decimal rendering of an integer, as Python `json.dumps` prints it. -/
def intChars (i : Int) : List Char :=
  if i < 0 then '-' :: natChars (-i).toNat else natChars i.toNat

/-- JSON string escaping for one character (quote, backslash and the control
characters Python escapes with a single letter). -/
def escChar (c : Char) : List Char :=
  if c = bsC then [bsC, bsC]
  else if c = quoteC then [bsC, quoteC]
  else if c = '\n' then [bsC, 'n']
  else if c = '\t' then [bsC, 't']
  else if c = '\r' then [bsC, 'r']
  else [c]

/-- JSON string escaping for a character list. -/
def escList : List Char → List Char
  | [] => []
  | c :: r => escChar c ++ escList r

mutual

/-- Serialized form of a JSON value, as a character list
(Python `json.dumps` with its default `", "` and `": "` separators). -/
def dumpChars : Json → List Char
  | .null => "null".toList
  | .bool true => "true".toList
  | .bool false => "false".toList
  | .num n => intChars n
  | .str s => quoteC :: (escList s.toList ++ [quoteC])
  | .arr es => '[' :: (dumpArr es ++ [']'])
  | .obj fs => lbraceC :: (dumpObj fs ++ [rbraceC])

/-- Serialized array elements. -/
def dumpArr : List Json → List Char
  | [] => []
  | e :: rest => dumpChars e ++ dumpArrTail rest

/-- Serialized array elements after the first, each preceded by `", "`. -/
def dumpArrTail : List Json → List Char
  | [] => []
  | e :: rest => ',' :: ' ' :: (dumpChars e ++ dumpArrTail rest)

/-- Serialized form of one object field. -/
def dumpField : String × Json → List Char
  | (k, v) => quoteC :: (escList k.toList ++ quoteC :: ':' :: ' ' :: dumpChars v)

/-- Serialized object fields. -/
def dumpObj : List (String × Json) → List Char
  | [] => []
  | kv :: rest => dumpField kv ++ dumpObjTail rest

/-- Serialized object fields after the first, each preceded by `", "`. -/
def dumpObjTail : List (String × Json) → List Char
  | [] => []
  | kv :: rest => ',' :: ' ' :: (dumpField kv ++ dumpObjTail rest)

end

/-- `json.dumps` of a modelled value. -/
def dumps (j : Json) : String := ⟨dumpChars j⟩

/-- Matches an expected literal run of characters, returning the remainder. -/
def expectLit : List Char → List Char → Option (List Char)
  | [], cs => some cs
  | p :: ps, c :: cs => if c = p then expectLit ps cs else Option.none
  | _ :: _, [] => Option.none

/-- Reads the longest digit run from the front of the input. -/
def takeDigits : List Char → List Char × List Char
  | [] => ([], [])
  | c :: r =>
      if c.isDigit then
        let p := takeDigits r
        (c :: p.1, p.2)
      else ([], c :: r)

/-- Numeric value of a digit run. -/
def natOfDigits (ds : List Char) : Nat :=
  ds.foldl (fun a c => a * 10 + (c.toNat - 48)) 0

/-- Decodes a single-letter JSON escape. -/
def unescape (e : Char) : Option Char :=
  if e = quoteC then some quoteC
  else if e = bsC then some bsC
  else if e = 'n' then some '\n'
  else if e = 't' then some '\t'
  else if e = 'r' then some '\r'
  else Option.none

/-- Parses a JSON string body after its opening quote, returning the decoded
characters and the remainder after the closing quote. -/
def parseStrRest : List Char → Option (List Char × List Char)
  | [] => Option.none
  | c :: rest =>
      if c = quoteC then some ([], rest)
      else if c = bsC then
        match rest with
        | [] => Option.none
        | e :: rest2 =>
            match unescape e with
            | some d => (parseStrRest rest2).map (fun p => (d :: p.1, p.2))
            | Option.none => Option.none
      else (parseStrRest rest).map (fun p => (c :: p.1, p.2))

/-- Parses a JSON integer literal. -/
def parseNum : List Char → Option (Json × List Char)
  | [] => Option.none
  | c :: rest =>
      if c = '-' then
        let p := takeDigits rest
        if p.1.isEmpty then Option.none
        else some (.num (-(natOfDigits p.1 : Int)), p.2)
      else
        let p := takeDigits (c :: rest)
        if p.1.isEmpty then Option.none
        else some (.num (natOfDigits p.1 : Int), p.2)

mutual

/-- Fuelled recursive-descent parser for one JSON value. -/
def parseVal : Nat → List Char → Option (Json × List Char)
  | 0, _ => Option.none
  | _ + 1, [] => Option.none
  | fuel + 1, c :: rest =>
      if c = 'n' then (expectLit "ull".toList rest).map (fun r => (Json.null, r))
      else if c = 't' then (expectLit "rue".toList rest).map (fun r => (Json.bool true, r))
      else if c = 'f' then (expectLit "alse".toList rest).map (fun r => (Json.bool false, r))
      else if c = quoteC then (parseStrRest rest).map (fun p => (Json.str ⟨p.1⟩, p.2))
      else if c = '[' then parseArrBody fuel rest
      else if c = lbraceC then parseObjBody fuel rest
      else if c = '-' ∨ c.isDigit then parseNum (c :: rest)
      else Option.none
termination_by fuel _ => (fuel, 1)

/-- Parses the inside of an array after the opening bracket. -/
def parseArrBody : Nat → List Char → Option (Json × List Char)
  | _, [] => Option.none
  | fuel, c :: rest =>
      if c = ']' then some (Json.arr [], rest)
      else
        (parseVal fuel (c :: rest)).bind fun er =>
          (parseArrRest fuel er.2).map fun p => (Json.arr (er.1 :: p.1), p.2)
termination_by fuel _ => (fuel, 2)

/-- Parses the inside of an object after the opening brace. -/
def parseObjBody : Nat → List Char → Option (Json × List Char)
  | _, [] => Option.none
  | fuel, c :: rest =>
      if c = rbraceC then some (Json.obj [], rest)
      else
        (parseField fuel (c :: rest)).bind fun kr =>
          (parseObjRest fuel kr.2).map fun p => (Json.obj (kr.1 :: p.1), p.2)
termination_by fuel _ => (fuel, 2)

/-- Parses array elements after the first, each preceded by `", "`, up to the
closing bracket. -/
def parseArrRest : Nat → List Char → Option (List Json × List Char)
  | 0, _ => Option.none
  | _ + 1, [] => Option.none
  | fuel + 1, c :: rest =>
      if c = ']' then some ([], rest)
      else if c = ',' then
        (expectLit [' '] rest).bind fun r =>
          (parseVal fuel r).bind fun er =>
            (parseArrRest fuel er.2).map fun p => (er.1 :: p.1, p.2)
      else Option.none
termination_by fuel _ => (fuel, 1)

/-- Parses one `"key": value` object field. -/
def parseField : Nat → List Char → Option ((String × Json) × List Char)
  | 0, _ => Option.none
  | _ + 1, [] => Option.none
  | fuel + 1, c :: rest =>
      if c = quoteC then
        (parseStrRest rest).bind fun kp =>
          (expectLit [':', ' '] kp.2).bind fun r2 =>
            (parseVal fuel r2).map fun vp => ((⟨kp.1⟩, vp.1), vp.2)
      else Option.none
termination_by fuel _ => (fuel, 1)

/-- Parses object fields after the first, each preceded by `", "`, up to the
closing brace. -/
def parseObjRest : Nat → List Char → Option (List (String × Json) × List Char)
  | 0, _ => Option.none
  | _ + 1, [] => Option.none
  | fuel + 1, c :: rest =>
      if c = rbraceC then some ([], rest)
      else if c = ',' then
        (expectLit [' '] rest).bind fun r =>
          (parseField fuel r).bind fun kr =>
            (parseObjRest fuel kr.2).map fun p => (kr.1 :: p.1, p.2)
      else Option.none
termination_by fuel _ => (fuel, 1)

end

/-- `json.loads` of a modelled argument string: parses one value and requires
the input to be fully consumed. -/
def loads (s : String) : Option Json :=
  match parseVal (2 * s.length + 2) s.toList with
  | some (j, []) => some j
  | _ => Option.none

/-- `true` when the input does not start with a digit, so that a freshly
parsed numeral cannot capture following characters. -/
def headSafe : List Char → Bool
  | [] => true
  | c :: _ => !c.isDigit

mutual

/-- Fuel sufficient for `parseVal` on the serialized form of a value. -/
def fuelVal : Json → Nat
  | .arr es => 1 + fuelElems es
  | .obj fs => 1 + fuelFields fs
  | _ => 1

/-- Fuel sufficient for `parseArrRest` on serialized trailing elements. -/
def fuelElems : List Json → Nat
  | [] => 1
  | e :: r => 1 + fuelVal e + fuelElems r

/-- Fuel sufficient for `parseObjRest` on serialized trailing fields. -/
def fuelFields : List (String × Json) → Nat
  | [] => 1
  | kv :: r => 2 + fuelVal kv.2 + fuelFields r

end

theorem fuelVal_pos (j : Json) : 1 ≤ fuelVal j := by
  cases j <;> simp [fuelVal] <;> omega

theorem fuelElems_pos (es : List Json) : 1 ≤ fuelElems es := by
  cases es <;> simp [fuelElems] <;> omega

theorem fuelFields_pos (fs : List (String × Json)) : 1 ≤ fuelFields fs := by
  cases fs <;> simp [fuelFields] <;> omega

theorem expectLit_append (p rest : List Char) : expectLit p (p ++ rest) = some rest := by
  induction p with
  | nil => rfl
  | cons c ps ih => simp [expectLit, ih]

theorem digitChar_isDigit {n : Nat} (h : n < 10) : (digitChar n).isDigit = true := by
  interval_cases n <;> decide

theorem digitChar_toNat {n : Nat} (h : n < 10) : (digitChar n).toNat = 48 + n := by
  interval_cases n <;> decide

theorem natToRevDigits_digits (n : Nat) : ∀ c ∈ natToRevDigits n, c.isDigit = true := by
  induction n using Nat.strong_induction_on with
  | _ n ih =>
    rw [natToRevDigits]
    split
    · rename_i h
      intro c hc
      simp only [List.mem_singleton] at hc
      subst hc
      exact digitChar_isDigit h
    · rename_i h
      intro c hc
      simp only [List.mem_cons] at hc
      rcases hc with rfl | hc
      · exact digitChar_isDigit (Nat.mod_lt _ (by omega))
      · exact ih (n / 10) (Nat.div_lt_self (by omega) (by omega)) c hc

theorem natToRevDigits_ne_nil (n : Nat) : natToRevDigits n ≠ [] := by
  rw [natToRevDigits]; split <;> simp

theorem natChars_digits (n : Nat) : ∀ c ∈ natChars n, c.isDigit = true := by
  intro c hc
  exact natToRevDigits_digits n c (List.mem_reverse.mp hc)

theorem natChars_ne_nil (n : Nat) : natChars n ≠ [] := by
  unfold natChars
  simp [natToRevDigits_ne_nil]

theorem natOfDigits_concat (xs : List Char) (c : Char) :
    natOfDigits (xs ++ [c]) = 10 * natOfDigits xs + (c.toNat - 48) := by
  simp [natOfDigits, List.foldl_append, Nat.mul_comm]

theorem natOfDigits_natChars (n : Nat) : natOfDigits (natChars n) = n := by
  unfold natChars
  induction n using Nat.strong_induction_on with
  | _ n ih =>
    rw [natToRevDigits]
    split
    · rename_i h
      simp [natOfDigits, digitChar_toNat h]
    · rename_i h
      rw [List.reverse_cons, natOfDigits_concat,
        ih (n / 10) (Nat.div_lt_self (by omega) (by omega)),
        digitChar_toNat (Nat.mod_lt _ (by omega))]
      omega

theorem takeDigits_of_digits (ds rest : List Char) (hd : ∀ c ∈ ds, c.isDigit = true)
    (hr : headSafe rest = true) : takeDigits (ds ++ rest) = (ds, rest) := by
  induction ds with
  | nil =>
    cases rest with
    | nil => rfl
    | cons c r =>
      simp only [headSafe, Bool.not_eq_true'] at hr
      simp [takeDigits, hr]
  | cons c ds ih =>
    have hc : c.isDigit = true := hd c (by simp)
    simp [takeDigits, hc, ih (fun x hx => hd x (by simp [hx]))]

theorem parseNum_natChars (m : Nat) (rest : List Char) (hr : headSafe rest = true) :
    parseNum (natChars m ++ rest) = some (.num (m : Int), rest) := by
  obtain ⟨c, t, hct⟩ := List.exists_cons_of_ne_nil (natChars_ne_nil m)
  have hcd : c.isDigit = true := by
    apply natChars_digits m
    rw [hct]; simp
  have hne : c ≠ '-' := by
    rintro rfl
    exact absurd hcd (by decide)
  have htake : takeDigits (natChars m ++ rest) = (natChars m, rest) :=
    takeDigits_of_digits _ _ (natChars_digits m) hr
  rw [hct]
  rw [hct] at htake
  simp only [List.cons_append] at htake ⊢
  rw [parseNum, if_neg hne]
  simp only [List.cons_append]
  rw [htake]
  have hnn : (c :: t).isEmpty = false := rfl
  simp only [hnn, ← hct, natOfDigits_natChars]
  simp [natChars_ne_nil m]

theorem parseNum_intChars (i : Int) (rest : List Char) (hr : headSafe rest = true) :
    parseNum (intChars i ++ rest) = some (.num i, rest) := by
  unfold intChars
  split
  · rename_i h
    have htake : takeDigits (natChars (-i).toNat ++ rest) = (natChars (-i).toNat, rest) :=
      takeDigits_of_digits _ _ (natChars_digits _) hr
    simp only [List.cons_append]
    rw [parseNum, if_pos rfl, htake]
    have hnn : (natChars (-i).toNat).isEmpty = false := by
      rw [List.isEmpty_eq_false_iff_exists_mem]
      obtain ⟨c, t, hct⟩ := List.exists_cons_of_ne_nil (natChars_ne_nil (-i).toNat)
      exact ⟨c, by rw [hct]; simp⟩
    simp only [hnn, natOfDigits_natChars]
    have hti : ((-i).toNat : Int) = -i := Int.toNat_of_nonneg (by omega)
    simp [hti]
  · rename_i h
    rw [parseNum_natChars _ _ hr]
    congr
    omega

theorem parseStrRest_esc (cs rest : List Char) :
    parseStrRest (escList cs ++ quoteC :: rest) = some (cs, rest) := by
  induction cs with
  | nil =>
    show parseStrRest (quoteC :: rest) = some ([], rest)
    rw [parseStrRest.eq_def]
    simp
  | cons c cs ih =>
    show parseStrRest ((escChar c ++ escList cs) ++ quoteC :: rest) = _
    rw [List.append_assoc]
    unfold escChar
    have hbq : ¬(bsC = quoteC) := by decide
    by_cases h1 : c = bsC
    · subst h1
      rw [if_pos rfl]
      simp only [List.cons_append, List.nil_append]
      rw [parseStrRest.eq_def]
      simp [unescape, ih, hbq]
    · rw [if_neg h1]
      by_cases h2 : c = quoteC
      · subst h2
        rw [if_pos rfl]
        simp only [List.cons_append, List.nil_append]
        rw [parseStrRest.eq_def]
        simp [unescape, ih, hbq]
      · rw [if_neg h2]
        by_cases h3 : c = '\n'
        · subst h3
          rw [if_pos rfl]
          simp only [List.cons_append, List.nil_append]
          rw [parseStrRest.eq_def]
          simp [unescape, ih, hbq, show ¬(Char.ofNat 110 = quoteC) from by decide,
            show ¬(Char.ofNat 110 = bsC) from by decide]
        · rw [if_neg h3]
          by_cases h4 : c = '\t'
          · subst h4
            rw [if_pos rfl]
            simp only [List.cons_append, List.nil_append]
            rw [parseStrRest.eq_def]
            simp [unescape, ih, hbq, show ¬(Char.ofNat 116 = quoteC) from by decide,
              show ¬(Char.ofNat 116 = bsC) from by decide]
          · rw [if_neg h4]
            by_cases h5 : c = '\r'
            · subst h5
              rw [if_pos rfl]
              simp only [List.cons_append, List.nil_append]
              rw [parseStrRest.eq_def]
              simp [unescape, ih, hbq, show ¬(Char.ofNat 114 = quoteC) from by decide,
                show ¬(Char.ofNat 114 = bsC) from by decide]
            · rw [if_neg h5]
              simp only [List.singleton_append, List.cons_append]
              rw [parseStrRest.eq_def]
              simp [h1, h2, ih]

theorem isDigit_ne_branch {c : Char} (h : c.isDigit = true) :
    ¬c = 'n' ∧ ¬c = 't' ∧ ¬c = 'f' ∧ ¬c = quoteC ∧ ¬c = '[' ∧ ¬c = lbraceC := by
  refine ⟨?_, ?_, ?_, ?_, ?_, ?_⟩ <;> rintro rfl <;> exact absurd h (by decide)

theorem dumpChars_shape (j : Json) : ∃ c t, dumpChars j = c :: t ∧ ¬c = ']' := by
  cases j with
  | null => exact ⟨'n', _, rfl, by decide⟩
  | bool b =>
    cases b with
    | false => exact ⟨'f', _, rfl, by decide⟩
    | true => exact ⟨'t', _, rfl, by decide⟩
  | num i =>
    show ∃ c t, intChars i = c :: t ∧ ¬c = ']'
    unfold intChars
    by_cases h : i < 0
    · rw [if_pos h]
      exact ⟨'-', _, rfl, by decide⟩
    · rw [if_neg h]
      obtain ⟨c, t, hct⟩ := List.exists_cons_of_ne_nil (natChars_ne_nil i.toNat)
      refine ⟨c, t, hct, ?_⟩
      have hcd : c.isDigit = true := natChars_digits _ c (by rw [hct]; simp)
      rintro rfl
      exact absurd hcd (by decide)
  | str s => exact ⟨quoteC, _, rfl, by decide⟩
  | arr es => exact ⟨'[', _, rfl, by decide⟩
  | obj fs => exact ⟨lbraceC, _, rfl, by decide⟩

theorem headSafe_arrTail (es : List Json) (rest : List Char) :
    headSafe (dumpArrTail es ++ ']' :: rest) = true := by
  cases es with
  | nil => simp [dumpArrTail, headSafe]
  | cons e r => simp [dumpArrTail, headSafe]

theorem headSafe_objTail (fs : List (String × Json)) (rest : List Char) :
    headSafe (dumpObjTail fs ++ rbraceC :: rest) = true := by
  cases fs with
  | nil => simp [dumpObjTail, headSafe, rbraceC]
  | cons kv r => simp [dumpObjTail, headSafe]


theorem parse_dump_round (fuel : Nat) :
    (∀ j rest, fuelVal j ≤ fuel → headSafe rest = true →
       parseVal fuel (dumpChars j ++ rest) = some (j, rest)) ∧
    (∀ es rest, fuelElems es ≤ fuel → headSafe rest = true →
       parseArrRest fuel (dumpArrTail es ++ ']' :: rest) = some (es, rest)) ∧
    (∀ kv rest, 1 + fuelVal (Prod.snd kv) ≤ fuel → headSafe rest = true →
       parseField fuel (dumpField kv ++ rest) = some (kv, rest)) ∧
    (∀ fs rest, fuelFields fs ≤ fuel → headSafe rest = true →
       parseObjRest fuel (dumpObjTail fs ++ rbraceC :: rest) = some (fs, rest)) := by
  induction fuel with
  | zero =>
    refine ⟨?_, ?_, ?_, ?_⟩
    · intro j rest hf _
      exact absurd hf (by have := fuelVal_pos j; omega)
    · intro es rest hf _
      exact absurd hf (by have := fuelElems_pos es; omega)
    · intro kv rest hf _
      exact absurd hf (by omega)
    · intro fs rest hf _
      exact absurd hf (by have := fuelFields_pos fs; omega)
  | succ fuel ih =>
    obtain ⟨ihV, ihA, ihF, ihO⟩ := ih
    refine ⟨?_, ?_, ?_, ?_⟩
    · intro j rest hf hr
      cases j with
      | null =>
        have hd : dumpChars Json.null = ['n', 'u', 'l', 'l'] := by simp [dumpChars]
        rw [hd]
        simp only [List.cons_append]
        simp only [parseVal]
        simp [expectLit]
      | bool b =>
        cases b with
        | true =>
          have hd : dumpChars (Json.bool true) = ['t', 'r', 'u', 'e'] := by simp [dumpChars]
          rw [hd]
          simp only [List.cons_append]
          simp only [parseVal]
          simp [expectLit]
        | false =>
          have hd : dumpChars (Json.bool false) = ['f', 'a', 'l', 's', 'e'] := by
            simp [dumpChars]
          rw [hd]
          simp only [List.cons_append]
          simp only [parseVal]
          simp [expectLit]
      | num i =>
        have hd : dumpChars (Json.num i) = intChars i := by simp [dumpChars]
        rw [hd]
        by_cases hi : i < 0
        · have hneg : intChars i = '-' :: natChars (-i).toNat := by
            unfold intChars
            rw [if_pos hi]
          rw [hneg]
          simp only [List.cons_append]
          simp only [parseVal]
          simp only [show (('-' : Char) = quoteC) = False from by decide,
            show (('-' : Char) = lbraceC) = False from by decide,
            if_false, true_or, if_true]
          rw [show ('-' :: (natChars (-i).toNat ++ rest)) = intChars i ++ rest from by
            rw [hneg]; simp]
          exact parseNum_intChars i rest hr
        · have hpos : intChars i = natChars i.toNat := by
            unfold intChars
            rw [if_neg hi]
          obtain ⟨c, t, hct⟩ := List.exists_cons_of_ne_nil (natChars_ne_nil i.toNat)
          have hcd : c.isDigit = true := natChars_digits _ c (by rw [hct]; simp)
          obtain ⟨n1, n2, n3, n4, n5, n6⟩ := isDigit_ne_branch hcd
          rw [hpos, hct]
          simp only [List.cons_append]
          simp only [parseVal]
          rw [if_neg n1, if_neg n2, if_neg n3, if_neg n4, if_neg n5, if_neg n6,
            if_pos (Or.inr hcd)]
          rw [show (c :: (t ++ rest)) = natChars i.toNat ++ rest from by rw [hct]; simp]
          rw [parseNum_natChars i.toNat rest hr]
          congr
          omega
      | str s =>
        have hd : dumpChars (Json.str s) ++ rest =
            quoteC :: (escList s.toList ++ quoteC :: rest) := by
          simp [dumpChars]
        rw [hd]
        simp only [parseVal]
        simp only [show (quoteC = 'n') = False from by decide,
          show (quoteC = 't') = False from by decide,
          show (quoteC = 'f') = False from by decide, if_false, if_true]
        rw [parseStrRest_esc]
        simp
      | arr es =>
        have hd : dumpChars (Json.arr es) ++ rest =
            '[' :: (dumpArr es ++ (']' :: rest)) := by
          simp [dumpChars]
        rw [hd]
        simp only [parseVal]
        simp only [show (('[' : Char) = quoteC) = False from by decide, if_false, if_true]
        cases es with
        | nil =>
          rw [show dumpArr ([] : List Json) ++ ']' :: rest = ']' :: rest from by
            simp [dumpArr]]
          simp [parseArrBody]
        | cons e es =>
          have harr : dumpArr (e :: es) ++ ']' :: rest =
              dumpChars e ++ (dumpArrTail es ++ ']' :: rest) := by
            simp [dumpArr]
          rw [harr]
          obtain ⟨c, t, hce, hcne⟩ := dumpChars_shape e
          have hfe : fuelVal e ≤ fuel := by
            simp [fuelVal, fuelElems] at hf
            omega
          have hfes : fuelElems es ≤ fuel := by
            simp [fuelVal, fuelElems] at hf
            omega
          have hpv : parseVal fuel (dumpChars e ++ (dumpArrTail es ++ ']' :: rest)) =
              some (e, dumpArrTail es ++ ']' :: rest) :=
            ihV e _ hfe (headSafe_arrTail es rest)
          rw [hce]
          simp only [List.cons_append]
          rw [hce] at hpv
          simp only [List.cons_append] at hpv
          simp only [parseArrBody]
          rw [if_neg hcne, hpv]
          simp only [Option.some_bind]
          rw [ihA es rest hfes hr]
          simp
      | obj fs =>
        have hd : dumpChars (Json.obj fs) ++ rest =
            lbraceC :: (dumpObj fs ++ (rbraceC :: rest)) := by
          simp [dumpChars]
        rw [hd]
        simp only [parseVal]
        simp only [show (lbraceC = 'n') = False from by decide,
          show (lbraceC = 't') = False from by decide,
          show (lbraceC = 'f') = False from by decide,
          show (lbraceC = quoteC) = False from by decide,
          show (lbraceC = '[') = False from by decide, if_false, if_true]
        cases fs with
        | nil =>
          rw [show dumpObj ([] : List (String × Json)) ++ rbraceC :: rest =
              rbraceC :: rest from by simp [dumpObj]]
          simp [parseObjBody]
        | cons kv fs =>
          have hobj : dumpObj (kv :: fs) ++ rbraceC :: rest =
              dumpField kv ++ (dumpObjTail fs ++ rbraceC :: rest) := by
            simp [dumpObj]
          rw [hobj]
          have hfkv : 1 + fuelVal (Prod.snd kv) ≤ fuel := by
            simp [fuelVal, fuelFields] at hf
            omega
          have hffs : fuelFields fs ≤ fuel := by
            simp [fuelVal, fuelFields] at hf
            omega
          have hpf : parseField fuel (dumpField kv ++ (dumpObjTail fs ++ rbraceC :: rest)) =
              some (kv, dumpObjTail fs ++ rbraceC :: rest) :=
            ihF kv _ hfkv (headSafe_objTail fs rest)
          have hfq : dumpField kv ++ (dumpObjTail fs ++ rbraceC :: rest) =
              quoteC :: (escList kv.1.toList ++
                quoteC :: ':' :: ' ' :: (dumpChars kv.2 ++
                  (dumpObjTail fs ++ rbraceC :: rest))) := by
            cases kv with
            | mk k v => simp [dumpField]
          rw [hfq]
          rw [hfq] at hpf
          simp only [parseObjBody]
          simp only [show (quoteC = rbraceC) = False from by decide, if_false]
          rw [hpf]
          simp only [Option.some_bind]
          rw [ihO fs rest hffs hr]
          simp
    · intro es rest hf hr
      cases es with
      | nil =>
        rw [show dumpArrTail ([] : List Json) ++ ']' :: rest = ']' :: rest from by
          simp [dumpArrTail]]
        simp [parseArrRest]
      | cons e es =>
        have hd : dumpArrTail (e :: es) ++ ']' :: rest =
            ',' :: ' ' :: (dumpChars e ++ (dumpArrTail es ++ ']' :: rest)) := by
          simp [dumpArrTail]
        rw [hd]
        simp only [parseArrRest]
        simp only [show ((',' : Char) = ']') = False from by decide, if_false, if_true]
        have hfe : fuelVal e ≤ fuel := by
          simp [fuelElems] at hf
          omega
        have hfes : fuelElems es ≤ fuel := by
          simp [fuelElems] at hf
          omega
        rw [show expectLit [' '] (' ' :: (dumpChars e ++ (dumpArrTail es ++ ']' :: rest))) =
          some (dumpChars e ++ (dumpArrTail es ++ ']' :: rest)) from by simp [expectLit]]
        simp only [Option.some_bind]
        rw [ihV e _ hfe (headSafe_arrTail es rest)]
        simp only [Option.some_bind]
        rw [ihA es rest hfes hr]
        simp
    · intro kv rest hf hr
      cases kv with
      | mk k v =>
        have hd : dumpField (k, v) ++ rest =
            quoteC :: (escList k.toList ++ quoteC :: ':' :: ' ' :: (dumpChars v ++ rest)) := by
          simp [dumpField]
        rw [hd]
        simp only [parseField]
        simp only [if_true]
        rw [parseStrRest_esc k.toList (':' :: ' ' :: (dumpChars v ++ rest))]
        simp only [Option.some_bind]
        rw [show expectLit [':', ' '] (':' :: ' ' :: (dumpChars v ++ rest)) =
          some (dumpChars v ++ rest) from by simp [expectLit]]
        simp only [Option.some_bind]
        have hfv : fuelVal v ≤ fuel := by
          simp at hf
          omega
        rw [ihV v rest hfv hr]
        simp
    · intro fs rest hf hr
      cases fs with
      | nil =>
        rw [show dumpObjTail ([] : List (String × Json)) ++ rbraceC :: rest =
            rbraceC :: rest from by simp [dumpObjTail]]
        simp [parseObjRest]
      | cons kv fs =>
        have hd : dumpObjTail (kv :: fs) ++ rbraceC :: rest =
            ',' :: ' ' :: (dumpField kv ++ (dumpObjTail fs ++ rbraceC :: rest)) := by
          simp [dumpObjTail]
        rw [hd]
        simp only [parseObjRest]
        simp only [show ((',' : Char) = rbraceC) = False from by decide, if_false, if_true]
        have hfkv : 1 + fuelVal (Prod.snd kv) ≤ fuel := by
          simp [fuelFields] at hf
          omega
        have hffs : fuelFields fs ≤ fuel := by
          simp [fuelFields] at hf
          omega
        rw [show expectLit [' '] (' ' :: (dumpField kv ++ (dumpObjTail fs ++ rbraceC :: rest))) =
          some (dumpField kv ++ (dumpObjTail fs ++ rbraceC :: rest)) from by simp [expectLit]]
        simp only [Option.some_bind]
        rw [ihF kv _ hfkv (headSafe_objTail fs rest)]
        simp only [Option.some_bind]
        rw [ihO fs rest hffs hr]
        simp

theorem dumpChars_len_pos (j : Json) : 1 ≤ (dumpChars j).length := by
  obtain ⟨c, t, hct, _⟩ := dumpChars_shape j
  rw [hct]
  simp

mutual

theorem fuelVal_le : (j : Json) → fuelVal j ≤ 2 * (dumpChars j).length
  | .null => by
      have := dumpChars_len_pos Json.null
      simp only [fuelVal]
      omega
  | .bool b => by
      have := dumpChars_len_pos (Json.bool b)
      simp only [fuelVal]
      omega
  | .num i => by
      have := dumpChars_len_pos (Json.num i)
      simp only [fuelVal]
      omega
  | .str s => by
      have := dumpChars_len_pos (Json.str s)
      simp only [fuelVal]
      omega
  | .arr [] => by
      simp [fuelVal, fuelElems, dumpChars, dumpArr]
  | .arr (e :: r) => by
      have h1 := fuelVal_le e
      have h2 := fuelElems_le r
      simp only [fuelVal, fuelElems, dumpChars, dumpArr, List.length_cons,
        List.length_append, List.length_singleton]
      omega
  | .obj [] => by
      simp [fuelVal, fuelFields, dumpChars, dumpObj]
  | .obj (kv :: r) => by
      have h1 := fuelVal_le kv.2
      have h2 := fuelFields_le r
      obtain ⟨k, v⟩ := kv
      simp only [fuelVal, fuelFields, dumpChars, dumpObj, dumpField, List.length_cons,
        List.length_append, List.length_singleton] at h1 h2 ⊢
      omega

theorem fuelElems_le : (es : List Json) → fuelElems es ≤ 2 * (dumpArrTail es).length + 2
  | [] => by simp [fuelElems, dumpArrTail]
  | e :: r => by
      have h1 := fuelVal_le e
      have h2 := fuelElems_le r
      simp only [fuelElems, dumpArrTail, List.length_cons, List.length_append]
      omega

theorem fuelFields_le : (fs : List (String × Json)) →
    fuelFields fs ≤ 2 * (dumpObjTail fs).length + 2
  | [] => by simp [fuelFields, dumpObjTail]
  | kv :: r => by
      have h1 := fuelVal_le kv.2
      have h2 := fuelFields_le r
      obtain ⟨k, v⟩ := kv
      simp only [fuelFields, dumpObjTail, dumpField, List.length_cons,
        List.length_append] at h1 h2 ⊢
      omega

end

/-- `json.loads` is a left inverse of `json.dumps` on modelled JSON values:
the round-trip property of the Python `json` module used by the translator. -/
theorem loads_dumps (j : Json) : loads (dumps j) = some j := by
  have hp : parseVal (2 * (dumpChars j).length + 2) (dumpChars j ++ []) = some (j, []) :=
    (parse_dump_round _).1 j [] (le_trans (fuelVal_le j) (by omega)) rfl
  rw [List.append_nil] at hp
  have hs : (dumps j).toList = dumpChars j := rfl
  have hl : (dumps j).length = (dumpChars j).length := rfl
  unfold loads
  rw [hs, hl, hp]

/-! ## Wire data model (`models.py`) and LangChain message model

`ChatMessage`, `ToolCall` and `ChatStreamEvent` mirror the Pydantic models.
`LCMessage` models the LangChain messages the translators exchange:
`SystemMessage`, `HumanMessage`, `AIMessage` (whose tool calls carry parsed
argument objects) and `ToolMessage`.  Python `uuid.uuid4()` is modelled by
`uuidStr` over a threaded counter, which produces pairwise distinct fresh
identifiers. -/

structure ToolCall where
  id : String
  name : String
  arguments : String
deriving DecidableEq, Repr

structure ChatMessage where
  role : String
  content : Option String
  tool_calls : Option (List ToolCall)
  tool_call_id : Option String
  name : Option String
deriving DecidableEq, Repr

structure ChatStreamEvent where
  event : String
  message_id : Option String
  delta : Option String
  message : Option ChatMessage
  messages : Option (List ChatMessage)
  error : Option String
deriving DecidableEq, Repr

structure LCToolCall where
  id : Option String
  name : String
  args : Json

inductive LCMessage where
  | system (content : String)
  | human (content : String)
  | ai (content : String) (tool_calls : List LCToolCall)
  | tool (content : String) (tool_call_id : String) (toolName : String)

/-- Model of `str(uuid.uuid4())`: the `n`-th fresh identifier drawn from the
generator.  Distinct draws give distinct strings. -/
def uuidStr (n : Nat) : String := "uuid-" ++ toString n

/-- The comprehension shared by `lc_message_to_chat_message` and the
`on_chat_model_end` branch of `stream_agent_response` (chat.py lines 334-341
and 476-485): each LangChain tool call becomes a wire `ToolCall` whose id is
`tc.get("id") or str(uuid.uuid4())` and whose arguments re-serialize the
parsed argument object with `json.dumps`. -/
def lcToolCallsToWire : List LCToolCall → Nat → List ToolCall × Nat
  | [], ctr => ([], ctr)
  | tc :: rest, ctr =>
      let idStep : String × Nat :=
        match tc.id with
        | some s => if s = "" then (uuidStr ctr, ctr + 1) else (s, ctr)
        | Option.none => (uuidStr ctr, ctr + 1)
      let tail := lcToolCallsToWire rest idStep.2
      (⟨idStep.1, tc.name, dumps tc.args⟩ :: tail.1, tail.2)

/-- Embeds `lc_message_to_chat_message` (chat.py lines 323-358).  The
trailing catch-all branch for unknown LangChain message classes is
unreachable over `LCMessage`.  The fresh-id counter is threaded through. -/
def lc_message_to_chat_message (msg : LCMessage) (ctr : Nat) : ChatMessage × Nat :=
  match msg with
  | .system c => (⟨"system", some c, Option.none, Option.none, Option.none⟩, ctr)
  | .human c => (⟨"user", some c, Option.none, Option.none, Option.none⟩, ctr)
  | .ai c tcs =>
      if tcs.isEmpty then
        (⟨"assistant", if c = "" then Option.none else some c,
          Option.none, Option.none, Option.none⟩, ctr)
      else
        let conv := lcToolCallsToWire tcs ctr
        (⟨"assistant", if c = "" then Option.none else some c,
          some conv.1, Option.none, Option.none⟩, conv.2)
  | .tool c tcid tname =>
      (⟨"tool", some c, Option.none, some tcid, some tname⟩, ctr)

/-- The wire-to-internal tool-call comprehension (chat.py lines 370-377):
each arguments string is `json.loads`-parsed once; the whole conversion fails
(Python raises) when any parse fails. -/
def toLcToolCalls : List ToolCall → Option (List LCToolCall)
  | [] => some []
  | tc :: rest =>
      match loads tc.arguments with
      | some j => (toLcToolCalls rest).map (fun ltcs => LCToolCall.mk (some tc.id) tc.name j :: ltcs)
      | Option.none => Option.none

/-- Embeds `chat_message_to_lc_message` (chat.py lines 361-387).  The result
is `none` exactly when Python raises: `json.loads(tc.arguments)` fails on an
assistant message with a non-empty tool-call list. -/
def chat_message_to_lc_message (msg : ChatMessage) : Option LCMessage :=
  if msg.role = "system" then some (.system (msg.content.getD ""))
  else if msg.role = "user" then some (.human (msg.content.getD ""))
  else if msg.role = "assistant" then
    match msg.tool_calls with
    | some tcs =>
        if tcs.isEmpty then some (.ai (msg.content.getD "") [])
        else
          (toLcToolCalls tcs).map (fun ltcs => LCMessage.ai (msg.content.getD "") ltcs)
    | Option.none => some (.ai (msg.content.getD "") [])
  else if msg.role = "tool" then
    some (.tool (msg.content.getD "") (msg.tool_call_id.getD "") (msg.name.getD ""))
  else some (.human (msg.content.getD ""))

/-! ## Streaming event aggregator (`stream_agent_response`, chat.py 395-558)

The agent's live feed (`agent_executor.astream_events`) is modelled as a list
of `UpEvent` values: the events the async iterator yields before it either
finishes normally (`err = none`) or raises (`err = some message`, the string
form of the exception).  The loop body itself is total, so inside the `try`
block the only fatal failure is the upstream raise; the input-message
conversion happens *before* the `try`, so when it raises the generator
produces no events at all. -/

structure ToolCallChunk where
  id : Option String
  name : Option String
  args : Option String
deriving DecidableEq, Repr

structure AIChunk where
  content : String
  tool_call_chunks : List ToolCallChunk
deriving DecidableEq, Repr

structure AIMsgOut where
  content : String
  tool_calls : List LCToolCall

inductive UpEvent where
  | chatModelStream (chunk : Option AIChunk)
  | chatModelEnd (output : Option AIMsgOut)
  | toolEnd (toolName : String) (output : Option String)
  | otherEvent

structure AggState where
  new_messages : List ChatMessage
  current_ai_content : String
  current_ai_tool_calls : List ToolCall
  current_ai_message_id : Option String
  ctr : Nat

/-- A `message_delta` stream event. -/
def deltaEvent (mid : Option String) (d : String) : ChatStreamEvent :=
  ⟨"message_delta", mid, some d, Option.none, Option.none, Option.none⟩

/-- A `message_complete` stream event. -/
def completeEvent (mid : Option String) (m : ChatMessage) : ChatStreamEvent :=
  ⟨"message_complete", mid, Option.none, some m, Option.none, Option.none⟩

/-- A `round_complete` stream event. -/
def roundCompleteEvent (ms : List ChatMessage) : ChatStreamEvent :=
  ⟨"round_complete", Option.none, Option.none, Option.none, some ms, Option.none⟩

/-- An `error` stream event. -/
def errorEvent (e : String) : ChatStreamEvent :=
  ⟨"error", Option.none, Option.none, Option.none, Option.none, some e⟩

/-- One tool-call fragment step (chat.py lines 453-467): a fragment with a
truthy id and name starts a new record with `arguments = tc_args or ""`; else
a truthy argument fragment appends to the last record; else nothing happens.
Missing keys, `None` and `""` are all falsy, so `Option.getD ""` captures
`tc_chunk.get("args", "")` and the truthiness tests together. -/
def accumToolChunk (cur : List ToolCall) (tc : ToolCallChunk) : List ToolCall :=
  let tcArgs := tc.args.getD ""
  if tc.id.getD "" ≠ "" ∧ tc.name.getD "" ≠ "" then
    cur ++ [⟨tc.id.getD "", tc.name.getD "", tcArgs⟩]
  else
    match cur.getLast? with
    | some last =>
        if tcArgs ≠ "" then
          cur.dropLast ++ [⟨last.id, last.name, last.arguments ++ tcArgs⟩]
        else cur
    | Option.none => cur

/-- Folds a whole `tool_call_chunks` list into the accumulator. -/
def accumToolChunks (cur : List ToolCall) (chunks : List ToolCallChunk) : List ToolCall :=
  chunks.foldl accumToolChunk cur

/-- The Python search loop over `reversed(new_messages)` (chat.py 514-522),
with its exact accumulator semantics: the inner loop overwrites
`tool_call_id` with the first name-matching call of the message, and the
outer loop stops only when the found id is truthy. -/
def findToolCallIdLoop (tool_name : String) : List ChatMessage → Option String → Option String
  | [], acc => acc
  | m :: rest, acc =>
      if m.role = "assistant" ∧ ¬(m.tool_calls.getD []).isEmpty then
        let acc2 :=
          match (m.tool_calls.getD []).find? (fun tc => tc.name == tool_name) with
          | some tc => some tc.id
          | Option.none => acc
        if acc2.getD "" ≠ "" then acc2 else findToolCallIdLoop tool_name rest acc2
      else findToolCallIdLoop tool_name rest acc

/-- Correlation search entry point: newest message first. -/
def findToolCallId (msgs : List ChatMessage) (tool_name : String) : Option String :=
  findToolCallIdLoop tool_name msgs.reverse Option.none

/-- One iteration of the `async for event in ...` loop: returns the updated
accumulator state and the events yielded during this iteration. -/
def stepEvent (st : AggState) (ev : UpEvent) : AggState × List ChatStreamEvent :=
  match ev with
  | .chatModelStream Option.none => (st, [])
  | .chatModelStream (some chunk) =>
      let midCtr : String × Nat :=
        match st.current_ai_message_id with
        | some m => (m, st.ctr)
        | Option.none => (uuidStr st.ctr, st.ctr + 1)
      let contentEvs : String × List ChatStreamEvent :=
        if chunk.content ≠ "" then
          (st.current_ai_content ++ chunk.content,
            [deltaEvent (some midCtr.1) chunk.content])
        else (st.current_ai_content, [])
      let tcs := accumToolChunks st.current_ai_tool_calls chunk.tool_call_chunks
      (⟨st.new_messages, contentEvs.1, tcs, some midCtr.1, midCtr.2⟩, contentEvs.2)
  | .chatModelEnd Option.none => (st, [])
  | .chatModelEnd (some out) =>
      let conv : Option (List ToolCall) × Nat :=
        if out.tool_calls.isEmpty then (Option.none, st.ctr)
        else
          let w := lcToolCallsToWire out.tool_calls st.ctr
          (some w.1, w.2)
      let content : Option String :=
        if out.content = "" then Option.none else some out.content
      let ai_message : ChatMessage := ⟨"assistant", content, conv.1, Option.none, Option.none⟩
      (⟨st.new_messages ++ [ai_message], "", [], Option.none, conv.2⟩,
        [completeEvent st.current_ai_message_id ai_message])
  | .toolEnd toolName outp =>
      let idCtr : String × Nat :=
        match findToolCallId st.new_messages toolName with
        | some s => (s, st.ctr)
        | Option.none => (uuidStr st.ctr, st.ctr + 1)
      let tool_message : ChatMessage :=
        ⟨"tool", some (outp.getD ""), Option.none, some idCtr.1, some toolName⟩
      (⟨st.new_messages ++ [tool_message], st.current_ai_content,
        st.current_ai_tool_calls, st.current_ai_message_id, idCtr.2⟩,
        [completeEvent (some idCtr.1) tool_message])
  | .otherEvent => (st, [])

/-- Folds the whole upstream feed, concatenating the yielded events. -/
def processFeed (st : AggState) : List UpEvent → AggState × List ChatStreamEvent
  | [] => (st, [])
  | ev :: rest =>
      let step := stepEvent st ev
      let tail := processFeed step.1 rest
      (tail.1, step.2 ++ tail.2)

/-- The built-in system prompt (chat.py lines 74-91). -/
def SYSTEM_PROMPT : String :=
  "你是 MarkMind Agent，一个高超的个人知识库助手，基于用户的知识图谱进行智能问答和探索。\n" ++
  "你的核心能力包括：搜索信息、检索文档详情以及深入探索相关概念。\n\n" ++
  "请严格遵守以下行为准则：\n\n" ++
  "1. **工具优先**：在回答问题之前，请务必优先调用可用工具以获取准确的事实信息，切勿仅凭记忆或猜测作答。\n" ++
  "2. **引用格式（至关重要）**：\n" ++
  "   当你在回复中提及知识图谱中的任何节点（如文档或概念）时，**必须**严格使用以下专用格式：\n" ++
  "   `[[node:<node_id>|显示名称]]`\n" ++
  "   * 正确示例：`[[node:doc:abc123|深度学习综述]]` `[[node:concept:abc123|大模型]]`\n" ++
  "   * 错误示例：`[深度学习综述](doc:abc123)` 或使用了知识图谱中不存在的 ID 或名称。\n" ++
  "3. **严禁编造 ID**：绝对不允许捏造节点 ID。你只能使用由工具查询或系统返回的真实 ID。外部链接不要用这种格式。\n" ++
  "4. **内容整合**：当调用工具获取到文档或概念详情后，请将检索到的核心结果有机地整合进你的回答中，而不是简单罗列数据。\n\n" ++
  "**输出规范**：\n" ++
  "* 请全程使用 **Markdown** 格式，以便前端正确渲染。\n" ++
  "* 请始终使用与用户提问相同的语言进行回复。\n"

/-- `any(msg.role == "system" for msg in messages)` (chat.py line 404). -/
def hasSystemRole (messages : List ChatMessage) : Bool :=
  messages.any (fun m => m.role == "system")

/-- The `lc_messages` construction (chat.py lines 400-409): the built-in
system prompt is prepended exactly when no input message has role `system`,
then every input message is converted.  `none` when a conversion raises. -/
def convMessages : List ChatMessage → Option (List LCMessage)
  | [] => some []
  | m :: rest =>
      match chat_message_to_lc_message m with
      | some lm => (convMessages rest).map (fun l => lm :: l)
      | Option.none => Option.none

def buildLcMessages (messages : List ChatMessage) : Option (List LCMessage) :=
  let lead : List LCMessage :=
    if hasSystemRole messages then [] else [LCMessage.system SYSTEM_PROMPT]
  (convMessages messages).map (fun conv => lead ++ conv)

/-- The initial accumulator state of a run. -/
def initState : AggState := ⟨[], "", [], Option.none, 0⟩

/-- Embeds `stream_agent_response` (chat.py lines 395-558): the list of SSE
events the generator yields for the given input messages, upstream feed, and
optional upstream exception.  A conversion failure before the `try` block
yields no events at all; a normal run ends with one `round_complete`; an
upstream raise ends with one `error` event. -/
def stream_agent_response (messages : List ChatMessage) (feed : List UpEvent)
    (err : Option String) : List ChatStreamEvent :=
  match buildLcMessages messages with
  | Option.none => []
  | some _ =>
      let run := processFeed initState feed
      match err with
      | Option.none => run.2 ++ [roundCompleteEvent (messages ++ run.1.new_messages)]
      | some e => run.2 ++ [errorEvent e]

/-! ## Document store model and graph operations

`database.py` executes SurrealDB queries over the network, so the store is
modelled as an opaque interface record `DB` whose members may behave
arbitrarily — the graph-side theorems quantify over every store behaviour
("for any graph topology").  Similarity scores and embeddings are modelled
with rationals (the claims under study never depend on float rounding).
Record dictionaries are modelled with their schema fields; `id` carries the
`str()` rendering of the stored record id, and relation endpoints stay as
raw `PyVal`s because every consumer pipes them through `_record_to_id`.
Timestamps and the unused `meta`/`url` fields are outside the model. -/

structure DocRec where
  idStr : String
  title : String
  summary : String
  content : String
  docType : String
  embedding : List Rat

structure ConceptRec where
  idStr : String
  name : String
  desc : String
  embedding : List Rat

structure ChunkRec where
  text : String
  embedding : List Rat
  source : PyVal

structure EdgeRec where
  inVal : PyVal
  outVal : PyVal
  desc : Option String

structure DB where
  get_doc : String → Option DocRec
  get_concept : String → Option ConceptRec
  get_chunks_by_doc : String → List ChunkRec
  get_all_mentions : List EdgeRec
  get_all_related : List EdgeRec
  vector_search_docs : List Rat → Nat → List (DocRec × Rat)

structure GraphNode where
  id : String
  type : String
  label : String
  desc : String
deriving DecidableEq, Repr

structure NodeDetail where
  node : GraphNode
  full_content : String
  recommendations : List GraphNode
deriving DecidableEq, Repr

/-- Model of Python `str.startswith`, at the character-list level. -/
def strStartsWith (s p : String) : Bool := p.data.isPrefixOf s.data

/-- `format_node(node_data, "doc")` (graph.py lines 21-34). -/
def format_node_doc (d : DocRec) : GraphNode := ⟨d.idStr, "doc", d.title, d.summary⟩

/-- `format_node(node_data, "concept")` (graph.py lines 35-43). -/
def format_node_concept (c : ConceptRec) : GraphNode := ⟨c.idStr, "concept", c.name, c.desc⟩

/-- `for i, v in enumerate(e): avg[i] += v` (graph.py lines 163-165); faithful
whenever `e` is no longer than `avg`, which the fixed 1024-entry embedding
schema guarantees (a longer `e` would raise IndexError in Python). -/
def addInto (avg : List Rat) (e : List Rat) : List Rat :=
  (List.zipWith (fun a v => a + v) avg e) ++ avg.drop e.length

/-- Element-wise average of the chunk embeddings (graph.py lines 159-166). -/
def averageEmb (chunk_embs : List (List Rat)) (dim : Nat) (count : Nat) : List Rat :=
  (chunk_embs.foldl addInto (List.replicate dim 0)).map (fun x => x / (count : Rat))

/-- The vector-similarity phase of the `doc:` branch (graph.py lines
177-189): walk the search results, skip the source node and already-seen
ids, stop at five recommendations.  `seen` models the Python set. -/
def vectorPhaseDoc (node_id : String) :
    List (DocRec × Rat) → List String → List GraphNode → List String × List GraphNode
  | [], seen, recs => (seen, recs)
  | (doc, _) :: rest, seen, recs =>
      let s := doc.idStr
      if s = node_id then vectorPhaseDoc node_id rest seen recs
      else if s ∈ seen then vectorPhaseDoc node_id rest seen recs
      else
        let recs2 := recs ++ [format_node_doc doc]
        if 5 ≤ recs2.length then (seen ++ [s], recs2)
        else vectorPhaseDoc node_id rest (seen ++ [s]) recs2

/-- Inner loop of the concept-mention fallback (graph.py lines 202-215 and
229-242): other documents mentioning `concept_id`, excluding the source and
seen ids, stopping at five. -/
def fbInner (db : DB) (node_id concept_id : String) :
    List EdgeRec → List String → List GraphNode → List String × List GraphNode
  | [], seen, recs => (seen, recs)
  | m :: rest, seen, recs =>
      if record_to_id m.outVal = concept_id then
        let cand := record_to_id m.inVal
        if cand ≠ "" ∧ cand ≠ node_id ∧ cand ∉ seen then
          match db.get_doc cand with
          | some doc =>
              let seen2 := seen ++ [cand]
              let recs2 := recs ++ [format_node_doc doc]
              if 5 ≤ recs2.length then (seen2, recs2)
              else fbInner db node_id concept_id rest seen2 recs2
          | Option.none => fbInner db node_id concept_id rest seen recs
        else fbInner db node_id concept_id rest seen recs
      else fbInner db node_id concept_id rest seen recs

/-- Outer loop of the concept-mention fallback (graph.py lines 200-217 and
228-244): one inner pass per concept mentioned by the source document. -/
def fbOuter (db : DB) (node_id : String) :
    List String → List EdgeRec → List String → List GraphNode → List String × List GraphNode
  | [], _, seen, recs => (seen, recs)
  | concept_id :: cs, mentions, seen, recs =>
      let p := fbInner db node_id concept_id mentions seen recs
      if 5 ≤ p.2.length then p
      else fbOuter db node_id cs mentions p.1 p.2

/-- The embedding used by the `doc:` branch (graph.py lines 150-170): the
stored embedding, or else the element-wise average of the non-empty chunk
embeddings, or else empty. -/
def docEmbedding (db : DB) (node_id : String) (node_data : DocRec) : List Rat :=
  if node_data.embedding.isEmpty then
    let chunks := db.get_chunks_by_doc node_id
    let chunk_embs := (chunks.map (fun c => c.embedding)).filter (fun e => ¬e.isEmpty)
    match chunk_embs with
    | [] => []
    | e0 :: _ => averageEmb chunk_embs e0.length chunk_embs.length
  else node_data.embedding

/-- The rest of the `doc:` branch (graph.py lines 172-244) given the chosen
embedding: vector phase when an embedding exists, then the concept-mention
fallback when fewer than five recommendations were collected. -/
def docRecsCore (db : DB) (node_id : String) (embedding : List Rat) : List GraphNode :=
  let mentionsConcepts : List EdgeRec × List String :=
    let mentions := db.get_all_mentions
    (mentions, (mentions.filter (fun m => record_to_id m.inVal = node_id)).map
      (fun m => record_to_id m.outVal))
  if ¬embedding.isEmpty then
    let vp := vectorPhaseDoc node_id (db.vector_search_docs embedding 30) [] []
    if vp.2.length < 5 then
      (fbOuter db node_id mentionsConcepts.2 mentionsConcepts.1 vp.1 vp.2).2
    else vp.2
  else
    (fbOuter db node_id mentionsConcepts.2 mentionsConcepts.1 [] []).2

/-- The recommendation list of the `doc:` branch of `get_node_detail`
(graph.py lines 150-244), including the chunk-embedding average and both
copies of the concept-mention fallback. -/
def docRecommendations (db : DB) (node_id : String) (node_data : DocRec) : List GraphNode :=
  docRecsCore db node_id (docEmbedding db node_id node_data)

/-- The vector-similarity phase of the `concept:` branch (graph.py lines
257-267); note the source has no self-exclusion test here. -/
def vectorPhaseConcept :
    List (DocRec × Rat) → List String → List GraphNode → List String × List GraphNode
  | [], seen, recs => (seen, recs)
  | (doc, _) :: rest, seen, recs =>
      let s := doc.idStr
      if s ∈ seen then vectorPhaseConcept rest seen recs
      else
        let recs2 := recs ++ [format_node_doc doc]
        if 5 ≤ recs2.length then (seen ++ [s], recs2)
        else vectorPhaseConcept rest (seen ++ [s]) recs2

/-- The mention fallback of the `concept:` branch (graph.py lines 270-282):
documents mentioning the concept. -/
def conceptFallback (db : DB) (node_id : String) :
    List EdgeRec → List String → List GraphNode → List GraphNode
  | [], _, recs => recs
  | m :: rest, seen, recs =>
      if record_to_id m.outVal = node_id then
        let cand := record_to_id m.inVal
        if cand ≠ "" ∧ cand ∉ seen then
          match db.get_doc cand with
          | some doc =>
              let recs2 := recs ++ [format_node_doc doc]
              let seen2 := seen ++ [cand]
              if 5 ≤ recs2.length then recs2
              else conceptFallback db node_id rest seen2 recs2
          | Option.none => conceptFallback db node_id rest seen recs
        else conceptFallback db node_id rest seen recs
      else conceptFallback db node_id rest seen recs

/-- The recommendation list of the `concept:` branch of `get_node_detail`
(graph.py lines 254-282). -/
def conceptRecommendations (db : DB) (node_id : String) (node_data : ConceptRec) :
    List GraphNode :=
  let recs0 :=
    if ¬node_data.embedding.isEmpty then
      (vectorPhaseConcept (db.vector_search_docs node_data.embedding 30) [] []).2
    else []
  if recs0.length < 5 then
    conceptFallback db node_id db.get_all_mentions (recs0.map (fun r => r.id)) recs0
  else recs0

/-- Embeds `get_node_detail` (graph.py lines 128-293).  `none` models the
HTTP error responses (404 for a missing node, 400 for an id with neither
prefix). -/
def get_node_detail (db : DB) (node_id : String) : Option NodeDetail :=
  if strStartsWith node_id "doc:" then
    match db.get_doc node_id with
    | Option.none => Option.none
    | some node_data =>
        some ⟨format_node_doc node_data, node_data.content,
          docRecommendations db node_id node_data⟩
  else if strStartsWith node_id "concept:" then
    match db.get_concept node_id with
    | Option.none => Option.none
    | some node_data =>
        some ⟨format_node_concept node_data, node_data.desc,
          conceptRecommendations db node_id node_data⟩
  else Option.none

/-! ## Concept context tool (`get_concept_details`, chat.py 192-261) -/

/-- `(summary[:300] + "...") if len(summary) > 300 else summary`
(chat.py lines 228-230). -/
def summaryShort (summary : String) : String :=
  if 300 < summary.length then summary.take 300 ++ "..." else summary

/-- `related_docs` (chat.py lines 209-213): documents reached through the
inverse direction of `mentions` edges, one entry per matching edge. -/
def relatedDocsOfConcept (db : DB) (cid : String) : List String :=
  (db.get_all_mentions.filter (fun m => record_to_id m.outVal = cid)).map
    (fun m => record_to_id m.inVal)

/-- One iteration of the `neighbors` accumulation loop (chat.py lines
241-247): a `related` edge contributes its far endpoint in either
direction, except for self-loops. -/
def neighborStep (cid : String) (acc : List String) (r : EdgeRec) : List String :=
  let in_id := record_to_id r.inVal
  let out_id := record_to_id r.outVal
  let acc1 := if in_id = cid ∧ out_id ≠ cid then acc ++ [out_id] else acc
  if out_id = cid ∧ in_id ≠ cid then acc1 ++ [in_id] else acc1

/-- The `neighbors` accumulation loop (chat.py lines 239-247): `related`
edges traversed in both directions, excluding self-loops. -/
def neighborsRaw (db : DB) (cid : String) : List String :=
  db.get_all_related.foldl (neighborStep cid) []

/-- Order-preserving first-occurrence deduplication, the
`seen.add` comprehension idiom (chat.py lines 249-251). -/
def dedupGo (seen : List String) : List String → List String
  | [] => []
  | x :: rest => if x ∈ seen then dedupGo seen rest else x :: dedupGo (seen ++ [x]) rest

/-- Entry point of the deduplication. -/
def dedupKeepFirst (xs : List String) : List String := dedupGo [] xs

/-- The deduplicated neighbor-concept list (chat.py lines 249-251). -/
def neighborsOfConcept (db : DB) (cid : String) : List String :=
  dedupKeepFirst (neighborsRaw db cid)

/-- One related-document line of the concept tool output (chat.py lines
222-235); empty when the document no longer exists. -/
def conceptDocLine (db : DB) (doc_id : String) : String :=
  match db.get_doc doc_id with
  | Option.none => ""
  | some doc =>
      let summary := doc.summary.trim
      if summary ≠ "" then
        "- [[node:" ++ doc_id ++ "|" ++ doc.title ++ "]] (" ++ doc_id ++ ") — " ++
          summaryShort summary ++ "\n"
      else
        "- [[node:" ++ doc_id ++ "|" ++ doc.title ++ "]] (" ++ doc_id ++ ")\n"

/-- One neighbor-concept line (chat.py lines 255-259). -/
def conceptNeighborLine (db : DB) (cid : String) : String :=
  match db.get_concept cid with
  | some c => "- [[node:" ++ cid ++ "|" ++ c.name ++ "]]: " ++ c.desc.trim ++ "\n"
  | Option.none => "- [[node:" ++ cid ++ "|" ++ cid ++ "]]: \n"

/-- Embeds the `get_concept_details` tool (chat.py lines 192-261),
assembling its Markdown result from the lists above. -/
def get_concept_details (db : DB) (concept_id : String) : String :=
  match db.get_concept concept_id with
  | Option.none => "Concept " ++ concept_id ++ " not found"
  | some concept =>
      let related_docs := relatedDocsOfConcept db concept_id
      let header := "## Concept: " ++ concept.name ++ "\n\n**Description:** " ++
        concept.desc ++ "\n\n**Mentioned in " ++ toString related_docs.length ++
        " documents:**\n"
      let docsPart := String.join ((related_docs.take 20).map (conceptDocLine db))
      let neighbors := neighborsOfConcept db concept_id
      let nbrPart :=
        if ¬neighbors.isEmpty then
          "\n**Related Concepts:**\n" ++
            String.join ((neighbors.take 20).map (conceptNeighborLine db))
        else ""
      header ++ docsPart ++ nbrPart

/-- Store well-formedness facts used by the graph invariants, all grounded
in the SurrealDB schema (`database.py init_schema`): documents found by the
chunk-based vector search live in the `doc` table so their rendered ids are
`doc:`-prefixed; selecting a record id returns a record with that id; and
`mentions` is declared `IN doc OUT concept`. -/
structure DBWF (db : DB) : Prop where
  search_docs_table : ∀ emb lim p, p ∈ db.vector_search_docs emb lim →
    strStartsWith (Prod.fst p).idStr "doc:" = true
  get_doc_id : ∀ i d, db.get_doc i = some d → d.idStr = i
  mentions_in_doc : ∀ m ∈ db.get_all_mentions,
    strStartsWith (record_to_id m.inVal) "doc:" = true

/-! ## Claim theorems -/

/-- C7: for a mapping carrying both a `table` key and an `id` key the
normalizer is claimed to return the canonical `table:id` string, but the
source checks `"id" in val` first, so `{"table": "doc", "id": "abc"}`
evaluates to `"abc"` — the table-qualified branch is dead code and the claim
fails on this input (the remaining shapes behave as claimed). -/
theorem c7_record_to_id_table_id_mapping :
    record_to_id (PyVal.dict [("table", PyVal.str "doc"), ("id", PyVal.str "abc")]) = "abc" ∧
    ("abc" = "doc:abc") = False ∧
    record_to_id (PyVal.recordId "doc" "abc") = "doc:abc" ∧
    record_to_id (PyVal.str "doc:abc") = "doc:abc" ∧
    record_to_id PyVal.none = "" := by
  refine ⟨rfl, ?_, rfl, rfl, rfl⟩
  simp

/-- C8: the node-id normalizer is total by construction, idempotent
(re-normalizing its own string output returns it unchanged), returns the
empty string on `None`, and falls back to the `str()` rendering of the whole
value on an unknown shape. -/
theorem c8_record_to_id_idempotent (v : PyVal) :
    record_to_id (PyVal.str (record_to_id v)) = record_to_id v ∧
    record_to_id PyVal.none = "" ∧
    (∀ r : String, record_to_id (PyVal.other r) = pyStr (PyVal.other r)) := by
  exact ⟨rfl, rfl, fun r => rfl⟩

/-! ### C3: tool-call fragment accumulation -/

/-- Concatenation of a list of strings in order. -/
def strConcat (xs : List String) : String := xs.foldr (fun a b => a ++ b) ""

/-- A fragment carrying only argument text. -/
def argFrag (a : String) : ToolCallChunk := ⟨Option.none, Option.none, some a⟩

/-- An assistant turn's tool-call fragments, grouped: each record starts with
a fragment carrying id, name and an argument piece, followed by
argument-only fragments. -/
structure FragGroup where
  id : String
  name : String
  firstArgs : String
  moreArgs : List String

/-- The fragments of one record, in arrival order. -/
def groupFrags (g : FragGroup) : List ToolCallChunk :=
  ⟨some g.id, some g.name, some g.firstArgs⟩ :: g.moreArgs.map argFrag

/-- A full fragment sequence: possible leading argument-only fragments (which
belong to no record), then the records' fragments in order. -/
def fragSeq (lead : List String) (groups : List FragGroup) : List ToolCallChunk :=
  lead.map argFrag ++ (groups.map groupFrags).flatten

theorem accumToolChunks_append (cur : List ToolCall) (a b : List ToolCallChunk) :
    accumToolChunks cur (a ++ b) = accumToolChunks (accumToolChunks cur a) b := by
  simp [accumToolChunks, List.foldl_append]

theorem accum_argFrag_nil (lead : List String) :
    accumToolChunks [] (lead.map argFrag) = [] := by
  induction lead with
  | nil => rfl
  | cons a l ih =>
    show accumToolChunks (accumToolChunk [] (argFrag a)) (l.map argFrag) = []
    have h0 : accumToolChunk [] (argFrag a) = [] := by
      simp [accumToolChunk, argFrag]
    rw [h0]
    exact ih

theorem accum_argFrags_last (more : List String) : ∀ (cur : List ToolCall) (tc : ToolCall),
    accumToolChunks (cur ++ [tc]) (more.map argFrag) =
      cur ++ [⟨tc.id, tc.name, tc.arguments ++ strConcat more⟩] := by
  induction more with
  | nil =>
    intro cur tc
    show cur ++ [tc] = cur ++ [⟨tc.id, tc.name, tc.arguments ++ strConcat []⟩]
    simp [strConcat, String.append_empty]
  | cons a l ih =>
    intro cur tc
    show accumToolChunks (accumToolChunk (cur ++ [tc]) (argFrag a)) (l.map argFrag) = _
    by_cases ha : a = ""
    · subst ha
      have h0 : accumToolChunk (cur ++ [tc]) (argFrag "") = cur ++ [tc] := by
        simp [accumToolChunk, argFrag]
      rw [h0, ih cur tc]
      have hs : strConcat ("" :: l) = strConcat l := by
        simp [strConcat]
      rw [hs]
    · have h0 : accumToolChunk (cur ++ [tc]) (argFrag a) =
          cur ++ [⟨tc.id, tc.name, tc.arguments ++ a⟩] := by
        simp only [accumToolChunk, argFrag, Option.getD_some, Option.getD_none]
        rw [if_neg (by simp), List.getLast?_concat]
        simp [ha, List.dropLast_concat]
      rw [h0, ih cur ⟨tc.id, tc.name, tc.arguments ++ a⟩]
      have hs : tc.arguments ++ a ++ strConcat l = tc.arguments ++ strConcat (a :: l) := by
        simp [strConcat, String.append_assoc]
      simp only [hs]

theorem accum_groups : ∀ (groups : List FragGroup) (acc : List ToolCall),
    (∀ g ∈ groups, g.id ≠ "" ∧ g.name ≠ "") →
    accumToolChunks acc ((groups.map groupFrags).flatten) =
      acc ++ groups.map (fun g => ToolCall.mk g.id g.name (g.firstArgs ++ strConcat g.moreArgs)) := by
  intro groups
  induction groups with
  | nil => intro acc _; simp [accumToolChunks]
  | cons g gs ih =>
    intro acc h
    have hg := h g (by simp)
    have hstart : accumToolChunk acc ⟨some g.id, some g.name, some g.firstArgs⟩ =
        acc ++ [⟨g.id, g.name, g.firstArgs⟩] := by
      simp only [accumToolChunk, Option.getD_some]
      rw [if_pos ⟨hg.1, hg.2⟩]
    have hjoin : ((g :: gs).map groupFrags).flatten =
        (⟨some g.id, some g.name, some g.firstArgs⟩ :: g.moreArgs.map argFrag) ++
          (gs.map groupFrags).flatten := by
      simp [groupFrags]
    rw [hjoin]
    rw [show (⟨some g.id, some g.name, some g.firstArgs⟩ :: g.moreArgs.map argFrag) ++
        (gs.map groupFrags).flatten =
        ⟨some g.id, some g.name, some g.firstArgs⟩ ::
          (g.moreArgs.map argFrag ++ (gs.map groupFrags).flatten) from by simp]
    show accumToolChunks
        (accumToolChunk acc ⟨some g.id, some g.name, some g.firstArgs⟩)
        (g.moreArgs.map argFrag ++ (gs.map groupFrags).flatten) = _
    rw [hstart, accumToolChunks_append, accum_argFrags_last g.moreArgs acc]
    rw [ih _ (fun x hx => h x (by simp [hx]))]
    simp

/-- C3: within one assistant turn, a fragment carrying both an id and a name
starts a new tool-call record, an argument-only fragment appends to the most
recently started record, and after any such sequence each record's
accumulated argument string is the concatenation of its own fragments'
argument texts in arrival order (argument-only fragments arriving before any
record are dropped). -/
theorem c3_fragment_accumulation (lead : List String) (groups : List FragGroup)
    (h : ∀ g ∈ groups, g.id ≠ "" ∧ g.name ≠ "") :
    accumToolChunks [] (fragSeq lead groups) =
      groups.map (fun g => ToolCall.mk g.id g.name (g.firstArgs ++ strConcat g.moreArgs)) := by
  unfold fragSeq
  rw [accumToolChunks_append, accum_argFrag_nil, accum_groups groups [] h]
  simp

/-- C3 witness: the spec's own scenario — arguments split across the two
fragments of a `search_knowledge_graph` call accumulate to the full JSON
text. -/
theorem c3_fragment_accumulation_witness :
    accumToolChunks []
      (fragSeq [] [⟨"t1", "search_knowledge_graph", "\x7b\"query\":\"", ["x\"\x7d"]⟩]) =
      [ToolCall.mk "t1" "search_knowledge_graph" "\x7b\"query\":\"x\"\x7d"] := by
  rw [c3_fragment_accumulation [] [⟨"t1", "search_knowledge_graph", "\x7b\"query\":\"", ["x\"\x7d"]⟩]
    (by intro g hg; simp only [List.mem_singleton] at hg; subst hg; exact ⟨by decide, by decide⟩)]
  rfl

/-! ### C5: translator round-trip -/

theorem toLcToolCalls_length :
    ∀ (tcs : List ToolCall) (res : List LCToolCall),
    toLcToolCalls tcs = some res → res.length = tcs.length := by
  intro tcs
  induction tcs with
  | nil =>
    intro res h
    simp [toLcToolCalls] at h
    simp [← h]
  | cons tc rest ih =>
    intro res h
    simp only [toLcToolCalls] at h
    cases hl : loads tc.arguments with
    | none => rw [hl] at h; simp at h
    | some j =>
      rw [hl] at h
      cases hrest : toLcToolCalls rest with
      | none => rw [hrest] at h; simp at h
      | some ltcs =>
        rw [hrest] at h
        simp at h
        rw [← h]
        simp [ih ltcs hrest]

theorem convMessages_length :
    ∀ (ms : List ChatMessage) (res : List LCMessage),
    convMessages ms = some res → res.length = ms.length := by
  intro ms
  induction ms with
  | nil =>
    intro res h
    simp [convMessages] at h
    simp [← h]
  | cons m rest ih =>
    intro res h
    simp only [convMessages] at h
    cases hc : chat_message_to_lc_message m with
    | none => rw [hc] at h; simp at h
    | some lm =>
      rw [hc] at h
      cases hrest : convMessages rest with
      | none => rw [hrest] at h; simp at h
      | some l =>
        rw [hrest] at h
        simp at h
        rw [← h]
        simp [ih l hrest]

theorem toolcalls_roundtrip :
    ∀ (tcs : List ToolCall) (ctr : Nat),
    (∀ tc ∈ tcs, tc.id ≠ "" ∧ (loads tc.arguments).isSome = true) →
    ∃ ltcs, toLcToolCalls tcs = some ltcs ∧
      lcToolCallsToWire ltcs ctr =
        (tcs.map (fun tc => ToolCall.mk tc.id tc.name
          (dumps ((loads tc.arguments).getD Json.null))), ctr) := by
  intro tcs
  induction tcs with
  | nil =>
    intro ctr _
    exact ⟨[], rfl, rfl⟩
  | cons tc rest ih =>
    intro ctr h
    obtain ⟨hid, hsome⟩ := h tc (by simp)
    obtain ⟨j, hj⟩ := Option.isSome_iff_exists.mp hsome
    obtain ⟨lrest, hrest, hwire⟩ := ih ctr (fun x hx => h x (by simp [hx]))
    refine ⟨LCToolCall.mk (some tc.id) tc.name j :: lrest, ?_, ?_⟩
    · simp only [toLcToolCalls]
      rw [hj, hrest]
      simp
    · show lcToolCallsToWire (⟨some tc.id, tc.name, j⟩ :: lrest) ctr = _
      simp only [lcToolCallsToWire]
      rw [if_neg hid]
      simp only [hwire]
      simp [hj]

/-- C5 (amended): wire-to-internal-to-wire translation of an assistant
message with non-empty tool calls is the identity on the role, on the
content when the content is absent or non-empty (an empty-string content
normalizes to absent), and on each tool call's id, name and arguments
compared as parsed JSON values, provided each id is non-empty (a falsy id is
replaced by a fresh uuid) and each arguments string parses as JSON (which
the comparison-as-parsed presupposes; invalid JSON raises in
`chat_message_to_lc_message`). -/
theorem c5_translator_roundtrip (m : ChatMessage) (tcs : List ToolCall) (ctr : Nat)
    (hrole : m.role = "assistant")
    (htcs : m.tool_calls = some tcs)
    (hne : tcs ≠ [])
    (hprops : ∀ tc ∈ tcs, tc.id ≠ "" ∧ (loads tc.arguments).isSome = true)
    (hcontent : m.content ≠ some "") :
    ∃ lcm, chat_message_to_lc_message m = some lcm ∧
      (lc_message_to_chat_message lcm ctr).1.role = m.role ∧
      (lc_message_to_chat_message lcm ctr).1.content = m.content ∧
      ∃ tcs2, (lc_message_to_chat_message lcm ctr).1.tool_calls = some tcs2 ∧
        List.Forall₂ (fun tc2 tc => tc2.id = tc.id ∧ tc2.name = tc.name ∧
          loads tc2.arguments = loads tc.arguments ∧ (loads tc2.arguments).isSome = true)
          tcs2 tcs := by
  obtain ⟨ltcs, hmap, hwire⟩ := toolcalls_roundtrip tcs ctr hprops
  have hlen : ltcs.length = tcs.length := toLcToolCalls_length tcs ltcs hmap
  have hlne : ¬ltcs.isEmpty = true := by
    rw [List.isEmpty_iff_length_eq_zero, hlen]
    simpa [List.length_eq_zero] using hne
  refine ⟨LCMessage.ai (m.content.getD "") ltcs, ?_, ?_, ?_, ?_⟩
  · unfold chat_message_to_lc_message
    rw [if_neg (by rw [hrole]; decide), if_neg (by rw [hrole]; decide), if_pos hrole, htcs]
    have hemp : tcs.isEmpty = false := by
      rw [List.isEmpty_eq_false_iff_exists_mem]
      obtain ⟨x, xs, hx⟩ := List.exists_cons_of_ne_nil hne
      exact ⟨x, by rw [hx]; simp⟩
    simp only [hemp]
    rw [hmap]
    simp
  · show ((lc_message_to_chat_message (LCMessage.ai (m.content.getD "") ltcs) ctr).1).role = m.role
    simp only [lc_message_to_chat_message, hlne]
    rw [hrole]
    simp
  · show ((lc_message_to_chat_message (LCMessage.ai (m.content.getD "") ltcs) ctr).1).content = m.content
    simp only [lc_message_to_chat_message, hlne]
    cases hmc : m.content with
    | none => simp
    | some s =>
      have hs : s ≠ "" := by
        intro hs0
        exact hcontent (by rw [hmc, hs0])
      simp [hs]
  · refine ⟨tcs.map (fun tc => ToolCall.mk tc.id tc.name
      (dumps ((loads tc.arguments).getD Json.null))), ?_, ?_⟩
    · show ((lc_message_to_chat_message (LCMessage.ai (m.content.getD "") ltcs) ctr).1).tool_calls = _
      simp only [lc_message_to_chat_message, hlne]
      simp only [hwire]
      simp
    · rw [List.forall₂_map_left_iff, List.forall₂_same]
      intro tc htc
      obtain ⟨hid, hsome⟩ := hprops tc htc
      obtain ⟨j, hj⟩ := Option.isSome_iff_exists.mp hsome
      refine ⟨rfl, rfl, ?_, ?_⟩
      · show loads (dumps ((loads tc.arguments).getD Json.null)) = loads tc.arguments
        rw [hj]
        simp only [Option.getD_some]
        rw [loads_dumps]
      · show (loads (dumps ((loads tc.arguments).getD Json.null))).isSome = true
        rw [hj]
        simp only [Option.getD_some]
        rw [loads_dumps]
        rfl

/-- C5 counterexample: the claim as stated fails on the content field — an
assistant message with content `""` and a non-empty tool-call list
round-trips to content `None` (`msg.content or ""` on the way in, then
`str(...) if ... else None` on the way out), so the translation is not the
identity on the content at this input. -/
theorem c5_content_counterexample :
    ((chat_message_to_lc_message
        ⟨"assistant", some "", some [⟨"t1", "f", "\x7b\x7d"⟩], Option.none, Option.none⟩).map
      (fun lcm => (lc_message_to_chat_message lcm 0).1.content)) = some Option.none ∧
    (Option.none = some "") = False := by
  have hl : loads "\x7b\x7d" = some (Json.obj []) := by
    rw [show ("\x7b\x7d" : String) = dumps (Json.obj []) from rfl]
    exact loads_dumps (Json.obj [])
  constructor
  · unfold chat_message_to_lc_message
    simp only [show (("assistant" : String) = "system") = False from by simp,
      show (("assistant" : String) = "user") = False from by simp, if_false, if_pos rfl]
    simp only [toLcToolCalls]
    rw [hl]
    simp only [toLcToolCalls, Option.map_some]
    simp [lc_message_to_chat_message]
  · simp

/-- C5 witness: a concrete round-trip through both translators with content
`"hi"` and the spec scenario's `search_knowledge_graph` call. -/
theorem c5_translator_roundtrip_witness :
    ∃ lcm, chat_message_to_lc_message
        ⟨"assistant", some "hi",
          some [⟨"t1", "search_knowledge_graph", "\x7b\"query\": \"x\"\x7d"⟩],
          Option.none, Option.none⟩ = some lcm ∧
      (lc_message_to_chat_message lcm 0).1.role = "assistant" ∧
      (lc_message_to_chat_message lcm 0).1.content = some "hi" ∧
      ∃ tcs2, (lc_message_to_chat_message lcm 0).1.tool_calls = some tcs2 ∧
        List.Forall₂ (fun tc2 tc => tc2.id = tc.id ∧ tc2.name = tc.name ∧
          loads tc2.arguments = loads tc.arguments ∧ (loads tc2.arguments).isSome = true)
          tcs2 ([⟨"t1", "search_knowledge_graph", "\x7b\"query\": \"x\"\x7d"⟩] : List ToolCall) := by
  exact c5_translator_roundtrip
    ⟨"assistant", some "hi",
      some [⟨"t1", "search_knowledge_graph", "\x7b\"query\": \"x\"\x7d"⟩],
      Option.none, Option.none⟩
    [⟨"t1", "search_knowledge_graph", "\x7b\"query\": \"x\"\x7d"⟩] 0 rfl rfl
    (by simp)
    (by
      intro tc htc
      simp only [List.mem_singleton] at htc
      subst htc
      refine ⟨by simp, ?_⟩
      rw [show ("\x7b\"query\": \"x\"\x7d" : String) =
        dumps (Json.obj [("query", Json.str "x")]) from rfl]
      rw [loads_dumps]
      rfl)
    (by simp)

/-! ### Stream-machine lemmas and claims C1, C4, C10 -/

/-- A terminal stream event: `round_complete` or `error`. -/
def isTerminalEvent (e : ChatStreamEvent) : Bool :=
  e.event == "round_complete" || e.event == "error"

/-- Messages delivered by `message_complete` events, in emission order. -/
def completedMessages (evs : List ChatStreamEvent) : List ChatMessage :=
  evs.filterMap (fun e => if e.event = "message_complete" then e.message else Option.none)

theorem completedMessages_append (a b : List ChatStreamEvent) :
    completedMessages (a ++ b) = completedMessages a ++ completedMessages b := by
  simp [completedMessages]

theorem stepEvent_events_nonterminal (st : AggState) (ev : UpEvent) :
    ∀ e ∈ (stepEvent st ev).2, isTerminalEvent e = false := by
  intro e he
  cases ev with
  | chatModelStream chunk =>
    cases chunk with
    | none => simp [stepEvent] at he
    | some c =>
      simp only [stepEvent] at he
      split at he
      · simp only [List.mem_singleton] at he
        subst he
        rfl
      · simp at he
  | chatModelEnd output =>
    cases output with
    | none => simp [stepEvent] at he
    | some out =>
      simp only [stepEvent, List.mem_singleton] at he
      subst he
      rfl
  | toolEnd n o =>
    simp only [stepEvent, List.mem_singleton] at he
    subst he
    rfl
  | otherEvent => simp [stepEvent] at he

theorem processFeed_events_nonterminal :
    ∀ (feed : List UpEvent) (st : AggState),
    ∀ e ∈ (processFeed st feed).2, isTerminalEvent e = false := by
  intro feed
  induction feed with
  | nil => intro st e he; simp [processFeed] at he
  | cons ev rest ih =>
    intro st e he
    simp only [processFeed, List.mem_append] at he
    rcases he with he | he
    · exact stepEvent_events_nonterminal st ev e he
    · exact ih (stepEvent st ev).1 e he

theorem stepEvent_new_messages (st : AggState) (ev : UpEvent) :
    (stepEvent st ev).1.new_messages =
      st.new_messages ++ completedMessages (stepEvent st ev).2 := by
  cases ev with
  | chatModelStream chunk =>
    cases chunk with
    | none => simp [stepEvent, completedMessages]
    | some c =>
      simp only [stepEvent]
      split
      · simp [completedMessages, deltaEvent]
      · simp [completedMessages]
  | chatModelEnd output =>
    cases output with
    | none => simp [stepEvent, completedMessages]
    | some out => simp [stepEvent, completedMessages, completeEvent]
  | toolEnd n o => simp [stepEvent, completedMessages, completeEvent]
  | otherEvent => simp [stepEvent, completedMessages]

theorem processFeed_new_messages :
    ∀ (feed : List UpEvent) (st : AggState),
    (processFeed st feed).1.new_messages =
      st.new_messages ++ completedMessages (processFeed st feed).2 := by
  intro feed
  induction feed with
  | nil => intro st; simp [processFeed, completedMessages]
  | cons ev rest ih =>
    intro st
    simp only [processFeed]
    rw [completedMessages_append, ih (stepEvent st ev).1, stepEvent_new_messages]
    simp

theorem stepEvent_roles (st : AggState) (ev : UpEvent) :
    ∀ m ∈ (stepEvent st ev).1.new_messages,
      m ∈ st.new_messages ∨ m.role = "assistant" ∨ m.role = "tool" := by
  intro m hm
  cases ev with
  | chatModelStream chunk =>
    cases chunk with
    | none => exact Or.inl hm
    | some c =>
      simp only [stepEvent] at hm
      exact Or.inl hm
  | chatModelEnd output =>
    cases output with
    | none => exact Or.inl hm
    | some out =>
      simp only [stepEvent, List.mem_append, List.mem_singleton] at hm
      rcases hm with hm | hm
      · exact Or.inl hm
      · subst hm
        exact Or.inr (Or.inl rfl)
  | toolEnd n o =>
    simp only [stepEvent, List.mem_append, List.mem_singleton] at hm
    rcases hm with hm | hm
    · exact Or.inl hm
    · subst hm
      exact Or.inr (Or.inr rfl)
  | otherEvent => exact Or.inl hm

theorem processFeed_roles :
    ∀ (feed : List UpEvent) (st : AggState),
    ∀ m ∈ (processFeed st feed).1.new_messages,
      m ∈ st.new_messages ∨ m.role = "assistant" ∨ m.role = "tool" := by
  intro feed
  induction feed with
  | nil => intro st m hm; exact Or.inl hm
  | cons ev rest ih =>
    intro st m hm
    simp only [processFeed] at hm
    rcases ih (stepEvent st ev).1 m hm with hm2 | hr
    · exact stepEvent_roles st ev m hm2
    · exact Or.inr hr

/-- C1 (amended): provided the input messages convert successfully (every
assistant tool call's arguments parses as JSON — otherwise the generator
raises during conversion, before the `try` block, and the stream delivers no
events at all), every run emits exactly one terminal event as its last
event: `round_complete` when the upstream feed finishes normally, a single
`error` event carrying the exception text when it raises, and nothing
follows it. -/
theorem c1_terminal_event (messages : List ChatMessage) (feed : List UpEvent)
    (err : Option String) (lc : List LCMessage)
    (hconv : buildLcMessages messages = some lc) :
    ∃ evs terminal, stream_agent_response messages feed err = evs ++ [terminal] ∧
      (∀ e ∈ evs, isTerminalEvent e = false) ∧
      isTerminalEvent terminal = true ∧
      ((err = Option.none ∧ terminal.event = "round_complete") ∨
        (∃ s, err = some s ∧ terminal = errorEvent s)) := by
  unfold stream_agent_response
  rw [hconv]
  cases err with
  | none =>
    refine ⟨(processFeed initState feed).2,
      roundCompleteEvent (messages ++ (processFeed initState feed).1.new_messages),
      rfl, ?_, rfl, Or.inl ⟨rfl, rfl⟩⟩
    exact processFeed_events_nonterminal feed initState
  | some s =>
    refine ⟨(processFeed initState feed).2, errorEvent s, rfl, ?_, rfl,
      Or.inr ⟨s, rfl, rfl⟩⟩
    exact processFeed_events_nonterminal feed initState

/-- C1 counterexample: the claim as stated fails when input conversion
raises — an assistant message whose tool-call arguments are not valid JSON
makes `json.loads` raise while `lc_messages` is built, before the `try`
block, so the stream ends with no terminal event (indeed no events). -/
theorem c1_conversion_failure_counterexample :
    stream_agent_response
      [⟨"assistant", Option.none, some [⟨"t1", "f", "not json"⟩], Option.none, Option.none⟩]
      [] Option.none = [] := by
  have h1 : ∀ fuel, parseVal (fuel + 1) ("not json".toList) = Option.none := by
    intro fuel
    simp [parseVal, expectLit]
  have hbad : loads "not json" = Option.none := by
    unfold loads
    rw [show 2 * ("not json".length) + 2 = 17 + 1 from rfl, h1]
  unfold stream_agent_response
  have hconv : buildLcMessages
      [⟨"assistant", Option.none, some [⟨"t1", "f", "not json"⟩], Option.none, Option.none⟩] =
      Option.none := by
    simp [buildLcMessages, convMessages, chat_message_to_lc_message, toLcToolCalls, hbad]
  rw [hconv]

/-- C1 witness: the empty conversation with an empty feed converts
successfully and its stream ends in the `round_complete` terminal event. -/
theorem c1_terminal_event_witness :
    ∃ evs terminal, stream_agent_response [] [] Option.none = evs ++ [terminal] ∧
      (∀ e ∈ evs, isTerminalEvent e = false) ∧
      isTerminalEvent terminal = true ∧
      ((Option.none = (Option.none : Option String) ∧ terminal.event = "round_complete") ∨
        (∃ s, (Option.none : Option String) = some s ∧ terminal = errorEvent s)) :=
  c1_terminal_event [] [] Option.none [LCMessage.system SYSTEM_PROMPT] rfl

/-- C4: when the run ends without an unrecoverable error, exactly one
`round_complete` event is emitted, it is the last event, and its `messages`
field is the caller's input messages in order followed by every message
whose `message_complete` event was emitted, in emission order. -/
theorem c4_round_complete_history (messages : List ChatMessage) (feed : List UpEvent)
    (lc : List LCMessage) (hconv : buildLcMessages messages = some lc) :
    ∃ evs, stream_agent_response messages feed Option.none =
        evs ++ [roundCompleteEvent (messages ++ completedMessages evs)] ∧
      ((stream_agent_response messages feed Option.none).filter
        (fun e => e.event == "round_complete")).length = 1 := by
  unfold stream_agent_response
  rw [hconv]
  refine ⟨(processFeed initState feed).2, ?_, ?_⟩
  · have hnm := processFeed_new_messages feed initState
    have h0 : initState.new_messages = [] := rfl
    rw [h0, List.nil_append] at hnm
    rw [← hnm]
  · rw [List.filter_append]
    have h1 : (processFeed initState feed).2.filter (fun e => e.event == "round_complete") = [] := by
      rw [List.filter_eq_nil_iff]
      intro e he
      have := processFeed_events_nonterminal feed initState e he
      simp only [isTerminalEvent, Bool.or_eq_false_iff] at this
      simp [this.1]
    rw [h1]
    rfl

/-- C4 witness: the empty conversation and empty feed produce exactly the
single `round_complete` event whose messages list is empty. -/
theorem c4_round_complete_history_witness :
    ∃ evs, stream_agent_response [] [] Option.none =
        evs ++ [roundCompleteEvent ([] ++ completedMessages evs)] ∧
      ((stream_agent_response [] [] Option.none).filter
        (fun e => e.event == "round_complete")).length = 1 :=
  c4_round_complete_history [] [] [LCMessage.system SYSTEM_PROMPT] rfl

/-- C10: the built-in system prompt is prepended to the converted message
list exactly when no input message has role `system` (the prepended entry
is the head and the converted list is one longer than the input), and when
it is prepended, the final `round_complete` messages contain no message with
role `system` at all — in particular not the injected system prompt. -/
theorem c10_system_prompt_injection (messages : List ChatMessage) (feed : List UpEvent)
    (lc : List LCMessage) (hconv : buildLcMessages messages = some lc) :
    ((lc.head? = some (LCMessage.system SYSTEM_PROMPT) ∧ lc.length = messages.length + 1) ↔
      (∀ m ∈ messages, m.role ≠ "system")) ∧
    ((∀ m ∈ messages, m.role ≠ "system") →
      ∃ evs ms, stream_agent_response messages feed Option.none =
          evs ++ [roundCompleteEvent ms] ∧ ∀ m ∈ ms, m.role ≠ "system") := by
  have hsys : hasSystemRole messages = false ↔ (∀ m ∈ messages, m.role ≠ "system") := by
    simp [hasSystemRole]
  obtain ⟨conv, hconvm, hlc⟩ : ∃ conv, convMessages messages = some conv ∧
      lc = (if hasSystemRole messages then [] else [LCMessage.system SYSTEM_PROMPT]) ++ conv := by
    unfold buildLcMessages at hconv
    cases hcm : convMessages messages with
    | none => rw [hcm] at hconv; simp at hconv
    | some conv =>
      rw [hcm] at hconv
      have h2 := Option.some.inj hconv
      exact ⟨conv, rfl, h2.symm⟩
  have hclen : conv.length = messages.length := convMessages_length messages conv hconvm
  constructor
  · constructor
    · rintro ⟨hhead, hlen⟩
      by_cases hh : hasSystemRole messages = true
      · rw [hlc, hh] at hlen
        simp only [if_true, List.nil_append] at hlen
        omega
      · exact hsys.mp (by simpa using hh)
    · intro hns
      have hh : hasSystemRole messages = false := hsys.mpr hns
      rw [hlc, hh]
      simp [hclen]
  · intro hns
    unfold stream_agent_response
    rw [hconv]
    refine ⟨(processFeed initState feed).2,
      messages ++ (processFeed initState feed).1.new_messages, rfl, ?_⟩
    intro m hm
    rcases List.mem_append.mp hm with hm | hm
    · exact hns m hm
    · rcases processFeed_roles feed initState m hm with h0 | hr | ht
      · simp [initState] at h0
      · rw [hr]; decide
      · rw [ht]; decide

/-- C10 witness: a single user message has no system role, so the prompt is
prepended, and the resulting round history contains no system-role
message. -/
theorem c10_system_prompt_injection_witness :
    (([LCMessage.system SYSTEM_PROMPT,
        LCMessage.human "hello"].head? = some (LCMessage.system SYSTEM_PROMPT) ∧
      ([LCMessage.system SYSTEM_PROMPT, LCMessage.human "hello"] : List LCMessage).length =
        ([⟨"user", some "hello", Option.none, Option.none, Option.none⟩] : List ChatMessage).length + 1) ↔
      (∀ m ∈ ([⟨"user", some "hello", Option.none, Option.none, Option.none⟩] : List ChatMessage),
        m.role ≠ "system")) ∧
    ((∀ m ∈ ([⟨"user", some "hello", Option.none, Option.none, Option.none⟩] : List ChatMessage),
        m.role ≠ "system") →
      ∃ evs ms, stream_agent_response
          [⟨"user", some "hello", Option.none, Option.none, Option.none⟩] [] Option.none =
          evs ++ [roundCompleteEvent ms] ∧ ∀ m ∈ ms, m.role ≠ "system") :=
  c10_system_prompt_injection
    [⟨"user", some "hello", Option.none, Option.none, Option.none⟩] []
    [LCMessage.system SYSTEM_PROMPT, LCMessage.human "hello"] rfl

/-! ### C2: tool-result correlation -/

/-- An assistant message whose tool calls include one with the given name:
the declarative condition for the recency search. -/
def msgMatchesTool (m : ChatMessage) (tool_name : String) : Bool :=
  m.role == "assistant" && !(m.tool_calls.getD []).isEmpty &&
    (m.tool_calls.getD []).any (fun tc => tc.name == tool_name)

theorem findToolCallIdLoop_spec (n : String) :
    ∀ (msgs : List ChatMessage),
    (∀ m ∈ msgs, ∀ tc ∈ m.tool_calls.getD [], tc.id ≠ "") →
    findToolCallIdLoop n msgs Option.none =
      (msgs.find? (fun m => msgMatchesTool m n)).bind
        (fun m => ((m.tool_calls.getD []).find? (fun tc => tc.name == n)).map
          (fun tc => tc.id)) := by
  intro msgs
  induction msgs with
  | nil => intro _; rfl
  | cons m rest ih =>
    intro h
    simp only [findToolCallIdLoop]
    by_cases hcond : m.role = "assistant" ∧ ¬(m.tool_calls.getD []).isEmpty = true
    · rw [if_pos hcond]
      cases hfind : (m.tool_calls.getD []).find? (fun tc => tc.name == n) with
      | some tc =>
        have htc_mem : tc ∈ m.tool_calls.getD [] := List.mem_of_find?_eq_some hfind
        have hid : tc.id ≠ "" := h m (by simp) tc htc_mem
        have hpa := List.find?_some hfind
        have hmm : msgMatchesTool m n = true := by
          simp only [msgMatchesTool, Bool.and_eq_true, beq_iff_eq]
          refine ⟨⟨hcond.1, by simpa using hcond.2⟩, ?_⟩
          rw [List.any_eq_true]
          exact ⟨tc, htc_mem, by simpa using hpa⟩
        have hcons : List.find? (fun x => msgMatchesTool x n) (m :: rest) = some m :=
          List.find?_cons_of_pos _ hmm
        rw [hcons]
        simp [hfind, hid]
      | none =>
        have hmmf : ¬(msgMatchesTool m n = true) := by
          simp only [msgMatchesTool, Bool.and_eq_true]
          rintro ⟨⟨hrole, hne⟩, hany⟩
          rw [List.any_eq_true] at hany
          obtain ⟨tc, htc, hname⟩ := hany
          rw [List.find?_eq_none] at hfind
          exact hfind tc htc hname
        have hcons : List.find? (fun x => msgMatchesTool x n) (m :: rest) =
            List.find? (fun x => msgMatchesTool x n) rest :=
          List.find?_cons_of_neg _ hmmf
        rw [hcons]
        exact ih (fun x hx tc htc => h x (by simp [hx]) tc htc)
    · rw [if_neg hcond]
      have hmmf : ¬(msgMatchesTool m n = true) := by
        simp only [msgMatchesTool, Bool.and_eq_true, beq_iff_eq]
        rintro ⟨⟨hrole, hne⟩, _⟩
        exact hcond ⟨hrole, by simpa using hne⟩
      have hcons : List.find? (fun x => msgMatchesTool x n) (m :: rest) =
          List.find? (fun x => msgMatchesTool x n) rest :=
        List.find?_cons_of_neg _ hmmf
      rw [hcons]
      exact ih (fun x hx => h x (by simp [hx]))

/-- C2 (amended): a finishing tool's result is correlated to the most
recently emitted assistant message whose tool calls include a call with the
matching name — taking the first such call within that message, regardless
of whether that call was already matched by an earlier result (the source
keeps no matched-set, so repeated completions of one name all correlate to
the same id) — and when no assistant message matches, a freshly generated
uuid is used instead of dropping the result; the tool message is appended to
the round history and emitted as a `message_complete` carrying that id.
Stated under non-empty tool-call ids (a falsy stored id would make the
search skip onward). -/
theorem c2_tool_correlation (st : AggState) (toolName : String) (outp : Option String)
    (hids : ∀ m ∈ st.new_messages, ∀ tc ∈ m.tool_calls.getD [], tc.id ≠ "") :
    ∃ cid,
      (stepEvent st (UpEvent.toolEnd toolName outp)).2 =
        [completeEvent (some cid)
          ⟨"tool", some (outp.getD ""), Option.none, some cid, some toolName⟩] ∧
      (stepEvent st (UpEvent.toolEnd toolName outp)).1.new_messages =
        st.new_messages ++
          [⟨"tool", some (outp.getD ""), Option.none, some cid, some toolName⟩] ∧
      ((∃ m tc, st.new_messages.reverse.find? (fun x => msgMatchesTool x toolName) = some m ∧
          (m.tool_calls.getD []).find? (fun tc2 => tc2.name == toolName) = some tc ∧
          cid = tc.id) ∨
        (st.new_messages.reverse.find? (fun x => msgMatchesTool x toolName) = Option.none ∧
          cid = uuidStr st.ctr)) := by
  have hrev : ∀ m ∈ st.new_messages.reverse, ∀ tc ∈ m.tool_calls.getD [], tc.id ≠ "" :=
    fun m hm => hids m (List.mem_reverse.mp hm)
  have hspec := findToolCallIdLoop_spec toolName st.new_messages.reverse hrev
  cases hfm : st.new_messages.reverse.find? (fun x => msgMatchesTool x toolName) with
  | some m =>
    have hmm := List.find?_some hfm
    have hany : (m.tool_calls.getD []).any (fun tc => tc.name == toolName) = true := by
      simp only [msgMatchesTool, Bool.and_eq_true] at hmm
      exact hmm.2
    have hinner : ∃ tc,
        (m.tool_calls.getD []).find? (fun tc2 => tc2.name == toolName) = some tc := by
      rw [← Option.isSome_iff_exists, List.find?_isSome]
      rw [List.any_eq_true] at hany
      exact hany
    obtain ⟨tc, htc⟩ := hinner
    have hfid : findToolCallId st.new_messages toolName = some tc.id := by
      unfold findToolCallId
      rw [hspec, hfm]
      simp [htc]
    refine ⟨tc.id, ?_, ?_, Or.inl ⟨m, tc, rfl, htc, rfl⟩⟩
    · simp [stepEvent, hfid, completeEvent]
    · simp [stepEvent, hfid]
  | none =>
    have hfid : findToolCallId st.new_messages toolName = Option.none := by
      unfold findToolCallId
      rw [hspec, hfm]
      rfl
    refine ⟨uuidStr st.ctr, ?_, ?_, Or.inr ⟨rfl, rfl⟩⟩
    · simp [stepEvent, hfid, completeEvent]
    · simp [stepEvent, hfid]

/-- The upstream feed of the C2 counterexample: two assistant turns each
issuing one `get_document_details` call (ids `t1` then `t2`), then two
completions of that tool. -/
def c2feed : List UpEvent :=
  [UpEvent.chatModelEnd (some ⟨"", [⟨some "t1", "get_document_details", Json.null⟩]⟩),
   UpEvent.chatModelEnd (some ⟨"", [⟨some "t2", "get_document_details", Json.null⟩]⟩),
   UpEvent.toolEnd "get_document_details" (some "r1"),
   UpEvent.toolEnd "get_document_details" (some "r2")]

/-- The `tool_call_id`s of the tool-role `message_complete` events, in
emission order. -/
def toolCompleteIds (evs : List ChatStreamEvent) : List (Option String) :=
  evs.filterMap (fun e =>
    match e.message with
    | some m =>
        if e.event = "message_complete" ∧ m.role = "tool" then some m.tool_call_id
        else Option.none
    | Option.none => Option.none)

/-- C2 counterexample: after two assistant messages each carrying one
`get_document_details` call (`t1`, then `t2`), two completions of that tool
both correlate to `t2` — the second result reuses the already-matched call
instead of falling back to the not-yet-matched `t1` (or a fresh id), so the
"has not yet been matched to an earlier result" part of the claim is false
on the code. -/
theorem c2_rematch_counterexample :
    toolCompleteIds (stream_agent_response [] c2feed Option.none) =
      [some "t2", some "t2"] := by
  decide

/-- C2 witness: with two assistant messages whose calls are named
`get_document_details` (ids `t1` and `t2`), a completion correlates to the
most recently emitted one. -/
theorem c2_tool_correlation_witness :
    ∃ cid,
      (stepEvent
          ⟨[⟨"assistant", Option.none, some [⟨"t1", "get_document_details", "null"⟩],
              Option.none, Option.none⟩,
            ⟨"assistant", Option.none, some [⟨"t2", "get_document_details", "null"⟩],
              Option.none, Option.none⟩], "", [], Option.none, 7⟩
          (UpEvent.toolEnd "get_document_details" (some "result"))).2 =
        [completeEvent (some cid)
          ⟨"tool", some ((some "result").getD ""), Option.none, some cid,
            some "get_document_details"⟩] ∧
      (stepEvent
          ⟨[⟨"assistant", Option.none, some [⟨"t1", "get_document_details", "null"⟩],
              Option.none, Option.none⟩,
            ⟨"assistant", Option.none, some [⟨"t2", "get_document_details", "null"⟩],
              Option.none, Option.none⟩], "", [], Option.none, 7⟩
          (UpEvent.toolEnd "get_document_details" (some "result"))).1.new_messages =
        [⟨"assistant", Option.none, some [⟨"t1", "get_document_details", "null"⟩],
            Option.none, Option.none⟩,
          ⟨"assistant", Option.none, some [⟨"t2", "get_document_details", "null"⟩],
            Option.none, Option.none⟩] ++
          [⟨"tool", some ((some "result").getD ""), Option.none, some cid,
            some "get_document_details"⟩] ∧
      ((∃ m tc, ([⟨"assistant", Option.none, some [⟨"t1", "get_document_details", "null"⟩],
              Option.none, Option.none⟩,
            ⟨"assistant", Option.none, some [⟨"t2", "get_document_details", "null"⟩],
              Option.none, Option.none⟩] : List ChatMessage).reverse.find?
            (fun x => msgMatchesTool x "get_document_details") = some m ∧
          (m.tool_calls.getD []).find? (fun tc2 => tc2.name == "get_document_details") =
            some tc ∧ cid = tc.id) ∨
        (([⟨"assistant", Option.none, some [⟨"t1", "get_document_details", "null"⟩],
              Option.none, Option.none⟩,
            ⟨"assistant", Option.none, some [⟨"t2", "get_document_details", "null"⟩],
              Option.none, Option.none⟩] : List ChatMessage).reverse.find?
            (fun x => msgMatchesTool x "get_document_details") = Option.none ∧
          cid = uuidStr 7)) :=
  c2_tool_correlation
    ⟨[⟨"assistant", Option.none, some [⟨"t1", "get_document_details", "null"⟩],
        Option.none, Option.none⟩,
      ⟨"assistant", Option.none, some [⟨"t2", "get_document_details", "null"⟩],
        Option.none, Option.none⟩], "", [], Option.none, 7⟩
    "get_document_details" (some "result") (by decide)

/-! ### C6: recommendation invariants -/

theorem docPref_ne_conceptPref {s t : String} (hs : strStartsWith s "doc:" = true)
    (ht : strStartsWith t "concept:" = true) : s ≠ t := by
  intro he
  subst he
  unfold strStartsWith at hs ht
  rw [List.isPrefixOf_iff_prefix] at hs ht
  obtain ⟨u, hu⟩ := hs
  obtain ⟨v, hv⟩ := ht
  have hdata := hu.trans hv.symm
  simp only [show ("doc:".data) = ['d', 'o', 'c', ':'] from rfl,
    show ("concept:".data) = ['c', 'o', 'n', 'c', 'e', 'p', 't', ':'] from rfl,
    List.cons_append, List.cons.injEq] at hdata
  exact absurd hdata.1 (by decide)

theorem nodup_concat_of {l : List String} {a : String}
    (hl : l.Nodup) (ha : a ∉ l) : (l ++ [a]).Nodup := by
  rw [List.nodup_append]
  exact ⟨hl, List.nodup_singleton a, by simpa [List.disjoint_singleton] using ha⟩

theorem vectorPhaseDoc_inv (node_id : String) :
    ∀ (items : List (DocRec × Rat)) (seen : List String) (recs : List GraphNode),
    (recs.map GraphNode.id).Nodup →
    (∀ r ∈ recs, r.id ∈ seen) →
    (∀ r ∈ recs, r.id ≠ node_id) →
    recs.length < 5 →
    ((vectorPhaseDoc node_id items seen recs).2.map GraphNode.id).Nodup ∧
    (∀ r ∈ (vectorPhaseDoc node_id items seen recs).2,
       r.id ∈ (vectorPhaseDoc node_id items seen recs).1) ∧
    (∀ r ∈ (vectorPhaseDoc node_id items seen recs).2, r.id ≠ node_id) ∧
    (vectorPhaseDoc node_id items seen recs).2.length ≤ 5 ∧
    (∀ s ∈ seen, s ∈ (vectorPhaseDoc node_id items seen recs).1) := by
  intro items
  induction items with
  | nil =>
    intro seen recs hnd hin hne hlen
    exact ⟨hnd, hin, hne, Nat.le_of_lt hlen, fun s hs => hs⟩
  | cons p rest ih =>
    intro seen recs hnd hin hne hlen
    obtain ⟨doc, score⟩ := p
    simp only [vectorPhaseDoc]
    by_cases h1 : doc.idStr = node_id
    · rw [if_pos h1]
      exact ih seen recs hnd hin hne hlen
    · rw [if_neg h1]
      by_cases h2 : doc.idStr ∈ seen
      · rw [if_pos h2]
        exact ih seen recs hnd hin hne hlen
      · rw [if_neg h2]
        have hnew : doc.idStr ∉ recs.map GraphNode.id := by
          intro hmem
          obtain ⟨r, hr, hrid⟩ := List.mem_map.mp hmem
          exact h2 (hrid ▸ hin r hr)
        have hnd2 : ((recs ++ [format_node_doc doc]).map GraphNode.id).Nodup := by
          rw [List.map_append]
          exact nodup_concat_of hnd hnew
        have hin2 : ∀ r ∈ recs ++ [format_node_doc doc], r.id ∈ seen ++ [doc.idStr] := by
          intro r hr
          rcases List.mem_append.mp hr with hr | hr
          · exact List.mem_append.mpr (Or.inl (hin r hr))
          · simp only [List.mem_singleton] at hr
            subst hr
            simp [format_node_doc]
        have hne2 : ∀ r ∈ recs ++ [format_node_doc doc], r.id ≠ node_id := by
          intro r hr
          rcases List.mem_append.mp hr with hr | hr
          · exact hne r hr
          · simp only [List.mem_singleton] at hr
            subst hr
            simpa [format_node_doc] using h1
        by_cases h3 : 5 ≤ (recs ++ [format_node_doc doc]).length
        · rw [if_pos h3]
          refine ⟨hnd2, hin2, hne2, ?_, fun s hs => List.mem_append.mpr (Or.inl hs)⟩
          simp only [List.length_append, List.length_singleton]
          omega
        · rw [if_neg h3]
          simp only [List.length_append, List.length_singleton] at h3
          have hres := ih (seen ++ [doc.idStr]) (recs ++ [format_node_doc doc])
            hnd2 hin2 hne2 (by simp only [List.length_append, List.length_singleton]; omega)
          refine ⟨hres.1, hres.2.1, hres.2.2.1, hres.2.2.2.1, ?_⟩
          intro s hs
          exact hres.2.2.2.2 s (List.mem_append.mpr (Or.inl hs))

theorem fbInner_inv (db : DB) (hwf : DBWF db) (node_id concept_id : String) :
    ∀ (mentions : List EdgeRec) (seen : List String) (recs : List GraphNode),
    (recs.map GraphNode.id).Nodup →
    (∀ r ∈ recs, r.id ∈ seen) →
    (∀ r ∈ recs, r.id ≠ node_id) →
    recs.length < 5 →
    ((fbInner db node_id concept_id mentions seen recs).2.map GraphNode.id).Nodup ∧
    (∀ r ∈ (fbInner db node_id concept_id mentions seen recs).2,
       r.id ∈ (fbInner db node_id concept_id mentions seen recs).1) ∧
    (∀ r ∈ (fbInner db node_id concept_id mentions seen recs).2, r.id ≠ node_id) ∧
    (fbInner db node_id concept_id mentions seen recs).2.length ≤ 5 ∧
    (∀ s ∈ seen, s ∈ (fbInner db node_id concept_id mentions seen recs).1) := by
  intro mentions
  induction mentions with
  | nil =>
    intro seen recs hnd hin hne hlen
    exact ⟨hnd, hin, hne, Nat.le_of_lt hlen, fun s hs => hs⟩
  | cons m rest ih =>
    intro seen recs hnd hin hne hlen
    by_cases h1 : record_to_id m.outVal = concept_id
    · by_cases h2 : record_to_id m.inVal ≠ "" ∧ record_to_id m.inVal ≠ node_id ∧
          record_to_id m.inVal ∉ seen
      · rcases Option.eq_none_or_eq_some (db.get_doc (record_to_id m.inVal)) with
          hdoc | ⟨doc, hdoc⟩
        · have hred : fbInner db node_id concept_id (m :: rest) seen recs =
              fbInner db node_id concept_id rest seen recs := by
            simp only [fbInner]
            rw [if_pos h1, if_pos h2, hdoc]
          rw [hred]
          exact ih seen recs hnd hin hne hlen
        · have hred : fbInner db node_id concept_id (m :: rest) seen recs =
              (if 5 ≤ (recs ++ [format_node_doc doc]).length then
                (seen ++ [record_to_id m.inVal], recs ++ [format_node_doc doc])
              else fbInner db node_id concept_id rest
                (seen ++ [record_to_id m.inVal]) (recs ++ [format_node_doc doc])) := by
            simp only [fbInner]
            rw [if_pos h1, if_pos h2, hdoc]
          rw [hred]
          have hids : doc.idStr = record_to_id m.inVal := hwf.get_doc_id _ _ hdoc
          have hnew : doc.idStr ∉ recs.map GraphNode.id := by
            intro hmem
            obtain ⟨r, hr, hrid⟩ := List.mem_map.mp hmem
            exact h2.2.2 (hids ▸ hrid ▸ hin r hr)
          have hnd2 : ((recs ++ [format_node_doc doc]).map GraphNode.id).Nodup := by
            rw [List.map_append]
            exact nodup_concat_of hnd hnew
          have hin2 : ∀ r ∈ recs ++ [format_node_doc doc],
              r.id ∈ seen ++ [record_to_id m.inVal] := by
            intro r hr
            rcases List.mem_append.mp hr with hr | hr
            · exact List.mem_append.mpr (Or.inl (hin r hr))
            · simp only [List.mem_singleton] at hr
              subst hr
              simp [format_node_doc, hids]
          have hne2 : ∀ r ∈ recs ++ [format_node_doc doc], r.id ≠ node_id := by
            intro r hr
            rcases List.mem_append.mp hr with hr | hr
            · exact hne r hr
            · simp only [List.mem_singleton] at hr
              subst hr
              simpa [format_node_doc, hids] using h2.2.1
          by_cases h3 : 5 ≤ (recs ++ [format_node_doc doc]).length
          · rw [if_pos h3]
            refine ⟨hnd2, hin2, hne2, ?_, fun s hs => List.mem_append.mpr (Or.inl hs)⟩
            simp only [List.length_append, List.length_singleton]
            omega
          · rw [if_neg h3]
            simp only [List.length_append, List.length_singleton] at h3
            have hres := ih (seen ++ [record_to_id m.inVal]) (recs ++ [format_node_doc doc])
              hnd2 hin2 hne2 (by simp only [List.length_append, List.length_singleton]; omega)
            refine ⟨hres.1, hres.2.1, hres.2.2.1, hres.2.2.2.1, ?_⟩
            intro s hs
            exact hres.2.2.2.2 s (List.mem_append.mpr (Or.inl hs))
      · have hred : fbInner db node_id concept_id (m :: rest) seen recs =
            fbInner db node_id concept_id rest seen recs := by
          simp only [fbInner]
          rw [if_pos h1, if_neg h2]
        rw [hred]
        exact ih seen recs hnd hin hne hlen
    · have hred : fbInner db node_id concept_id (m :: rest) seen recs =
          fbInner db node_id concept_id rest seen recs := by
        simp only [fbInner]
        rw [if_neg h1]
      rw [hred]
      exact ih seen recs hnd hin hne hlen

theorem fbOuter_inv (db : DB) (hwf : DBWF db) (node_id : String) :
    ∀ (concepts : List String) (mentions : List EdgeRec)
      (seen : List String) (recs : List GraphNode),
    (recs.map GraphNode.id).Nodup →
    (∀ r ∈ recs, r.id ∈ seen) →
    (∀ r ∈ recs, r.id ≠ node_id) →
    recs.length < 5 →
    ((fbOuter db node_id concepts mentions seen recs).2.map GraphNode.id).Nodup ∧
    (∀ r ∈ (fbOuter db node_id concepts mentions seen recs).2, r.id ≠ node_id) ∧
    (fbOuter db node_id concepts mentions seen recs).2.length ≤ 5 := by
  intro concepts
  induction concepts with
  | nil =>
    intro mentions seen recs hnd hin hne hlen
    exact ⟨hnd, hne, Nat.le_of_lt hlen⟩
  | cons c cs ih =>
    intro mentions seen recs hnd hin hne hlen
    simp only [fbOuter]
    have hres := fbInner_inv db hwf node_id c mentions seen recs hnd hin hne hlen
    by_cases h5 : 5 ≤ (fbInner db node_id c mentions seen recs).2.length
    · rw [if_pos h5]
      exact ⟨hres.1, hres.2.2.1, hres.2.2.2.1⟩
    · rw [if_neg h5]
      exact ih mentions (fbInner db node_id c mentions seen recs).1
        (fbInner db node_id c mentions seen recs).2
        hres.1 hres.2.1 hres.2.2.1 (by omega)

theorem docRecsCore_inv (db : DB) (hwf : DBWF db) (node_id : String) (emb : List Rat) :
    ((docRecsCore db node_id emb).map GraphNode.id).Nodup ∧
    (∀ r ∈ docRecsCore db node_id emb, r.id ≠ node_id) ∧
    (docRecsCore db node_id emb).length ≤ 5 := by
  unfold docRecsCore
  by_cases he : ¬emb.isEmpty = true
  · rw [if_pos he]
    have hvp := vectorPhaseDoc_inv node_id (db.vector_search_docs emb 30) [] []
      (by simp) (by simp) (by simp) (by simp)
    by_cases hlt : (vectorPhaseDoc node_id (db.vector_search_docs emb 30) [] []).2.length < 5
    · rw [if_pos hlt]
      exact fbOuter_inv db hwf node_id
        (List.map (fun m => record_to_id m.outVal)
          (List.filter (fun m => record_to_id m.inVal = node_id) db.get_all_mentions))
        db.get_all_mentions
        (vectorPhaseDoc node_id (db.vector_search_docs emb 30) [] []).1
        (vectorPhaseDoc node_id (db.vector_search_docs emb 30) [] []).2
        hvp.1 hvp.2.1 hvp.2.2.1 hlt
    · rw [if_neg hlt]
      exact ⟨hvp.1, hvp.2.2.1, hvp.2.2.2.1⟩
  · rw [if_neg he]
    exact fbOuter_inv db hwf node_id _ db.get_all_mentions [] []
      (by simp) (by simp) (by simp) (by simp)

theorem docRecommendations_inv (db : DB) (hwf : DBWF db) (node_id : String) (d : DocRec) :
    ((docRecommendations db node_id d).map GraphNode.id).Nodup ∧
    (∀ r ∈ docRecommendations db node_id d, r.id ≠ node_id) ∧
    (docRecommendations db node_id d).length ≤ 5 := by
  unfold docRecommendations
  exact docRecsCore_inv db hwf node_id (docEmbedding db node_id d)

theorem vectorPhaseConcept_inv :
    ∀ (items : List (DocRec × Rat)) (seen : List String) (recs : List GraphNode),
    (∀ p ∈ items, strStartsWith (Prod.fst p).idStr "doc:" = true) →
    (recs.map GraphNode.id).Nodup →
    (∀ r ∈ recs, r.id ∈ seen) →
    (∀ r ∈ recs, strStartsWith r.id "doc:" = true) →
    recs.length < 5 →
    ((vectorPhaseConcept items seen recs).2.map GraphNode.id).Nodup ∧
    (∀ r ∈ (vectorPhaseConcept items seen recs).2,
       strStartsWith r.id "doc:" = true) ∧
    (vectorPhaseConcept items seen recs).2.length ≤ 5 := by
  intro items
  induction items with
  | nil =>
    intro seen recs hitems hnd hin hpre hlen
    exact ⟨hnd, hpre, Nat.le_of_lt hlen⟩
  | cons p rest ih =>
    intro seen recs hitems hnd hin hpre hlen
    obtain ⟨doc, score⟩ := p
    have hhd : strStartsWith doc.idStr "doc:" = true := hitems ⟨doc, score⟩ (List.mem_cons_self _ _)
    have htl : ∀ q ∈ rest, strStartsWith (Prod.fst q).idStr "doc:" = true :=
      fun q hq => hitems q (List.mem_cons_of_mem _ hq)
    simp only [vectorPhaseConcept]
    by_cases h2 : doc.idStr ∈ seen
    · rw [if_pos h2]
      exact ih seen recs htl hnd hin hpre hlen
    · rw [if_neg h2]
      have hnew : doc.idStr ∉ recs.map GraphNode.id := by
        intro hmem
        obtain ⟨r, hr, hrid⟩ := List.mem_map.mp hmem
        exact h2 (hrid ▸ hin r hr)
      have hnd2 : ((recs ++ [format_node_doc doc]).map GraphNode.id).Nodup := by
        rw [List.map_append]
        exact nodup_concat_of hnd hnew
      have hin2 : ∀ r ∈ recs ++ [format_node_doc doc], r.id ∈ seen ++ [doc.idStr] := by
        intro r hr
        rcases List.mem_append.mp hr with hr | hr
        · exact List.mem_append.mpr (Or.inl (hin r hr))
        · simp only [List.mem_singleton] at hr
          subst hr
          simp [format_node_doc]
      have hpre2 : ∀ r ∈ recs ++ [format_node_doc doc],
          strStartsWith r.id "doc:" = true := by
        intro r hr
        rcases List.mem_append.mp hr with hr | hr
        · exact hpre r hr
        · simp only [List.mem_singleton] at hr
          subst hr
          simpa [format_node_doc] using hhd
      by_cases h3 : 5 ≤ (recs ++ [format_node_doc doc]).length
      · rw [if_pos h3]
        refine ⟨hnd2, hpre2, ?_⟩
        simp only [List.length_append, List.length_singleton]
        omega
      · rw [if_neg h3]
        simp only [List.length_append, List.length_singleton] at h3
        exact ih (seen ++ [doc.idStr]) (recs ++ [format_node_doc doc]) htl
          hnd2 hin2 hpre2 (by simp only [List.length_append, List.length_singleton]; omega)

theorem conceptFallback_inv (db : DB) (hwf : DBWF db) (node_id : String) :
    ∀ (mentions : List EdgeRec) (seen : List String) (recs : List GraphNode),
    (∀ m ∈ mentions, strStartsWith (record_to_id m.inVal) "doc:" = true) →
    (recs.map GraphNode.id).Nodup →
    (∀ r ∈ recs, r.id ∈ seen) →
    (∀ r ∈ recs, strStartsWith r.id "doc:" = true) →
    recs.length < 5 →
    ((conceptFallback db node_id mentions seen recs).map GraphNode.id).Nodup ∧
    (∀ r ∈ conceptFallback db node_id mentions seen recs,
       strStartsWith r.id "doc:" = true) ∧
    (conceptFallback db node_id mentions seen recs).length ≤ 5 := by
  intro mentions
  induction mentions with
  | nil =>
    intro seen recs hms hnd hin hpre hlen
    exact ⟨hnd, hpre, Nat.le_of_lt hlen⟩
  | cons m rest ih =>
    intro seen recs hms hnd hin hpre hlen
    have hhd : strStartsWith (record_to_id m.inVal) "doc:" = true :=
      hms m (List.mem_cons_self _ _)
    have htl : ∀ x ∈ rest, strStartsWith (record_to_id x.inVal) "doc:" = true :=
      fun x hx => hms x (List.mem_cons_of_mem _ hx)
    by_cases h1 : record_to_id m.outVal = node_id
    · by_cases h2 : record_to_id m.inVal ≠ "" ∧ record_to_id m.inVal ∉ seen
      · rcases Option.eq_none_or_eq_some (db.get_doc (record_to_id m.inVal)) with
          hdoc | ⟨doc, hdoc⟩
        · have hred : conceptFallback db node_id (m :: rest) seen recs =
              conceptFallback db node_id rest seen recs := by
            simp only [conceptFallback]
            rw [if_pos h1, if_pos h2, hdoc]
          rw [hred]
          exact ih seen recs htl hnd hin hpre hlen
        · have hred : conceptFallback db node_id (m :: rest) seen recs =
              (if 5 ≤ (recs ++ [format_node_doc doc]).length then
                recs ++ [format_node_doc doc]
              else conceptFallback db node_id rest
                (seen ++ [record_to_id m.inVal]) (recs ++ [format_node_doc doc])) := by
            simp only [conceptFallback]
            rw [if_pos h1, if_pos h2, hdoc]
          rw [hred]
          have hids : doc.idStr = record_to_id m.inVal := hwf.get_doc_id _ _ hdoc
          have hnew : doc.idStr ∉ recs.map GraphNode.id := by
            intro hmem
            obtain ⟨r, hr, hrid⟩ := List.mem_map.mp hmem
            exact h2.2 (hids ▸ hrid ▸ hin r hr)
          have hnd2 : ((recs ++ [format_node_doc doc]).map GraphNode.id).Nodup := by
            rw [List.map_append]
            exact nodup_concat_of hnd hnew
          have hin2 : ∀ r ∈ recs ++ [format_node_doc doc],
              r.id ∈ seen ++ [record_to_id m.inVal] := by
            intro r hr
            rcases List.mem_append.mp hr with hr | hr
            · exact List.mem_append.mpr (Or.inl (hin r hr))
            · simp only [List.mem_singleton] at hr
              subst hr
              simp [format_node_doc, hids]
          have hpre2 : ∀ r ∈ recs ++ [format_node_doc doc],
              strStartsWith r.id "doc:" = true := by
            intro r hr
            rcases List.mem_append.mp hr with hr | hr
            · exact hpre r hr
            · simp only [List.mem_singleton] at hr
              subst hr
              simpa [format_node_doc, hids] using hhd
          by_cases h3 : 5 ≤ (recs ++ [format_node_doc doc]).length
          · rw [if_pos h3]
            refine ⟨hnd2, hpre2, ?_⟩
            simp only [List.length_append, List.length_singleton]
            omega
          · rw [if_neg h3]
            simp only [List.length_append, List.length_singleton] at h3
            exact ih (seen ++ [record_to_id m.inVal]) (recs ++ [format_node_doc doc]) htl
              hnd2 hin2 hpre2
              (by simp only [List.length_append, List.length_singleton]; omega)
      · have hred : conceptFallback db node_id (m :: rest) seen recs =
            conceptFallback db node_id rest seen recs := by
          simp only [conceptFallback]
          rw [if_pos h1, if_neg h2]
        rw [hred]
        exact ih seen recs htl hnd hin hpre hlen
    · have hred : conceptFallback db node_id (m :: rest) seen recs =
          conceptFallback db node_id rest seen recs := by
        simp only [conceptFallback]
        rw [if_neg h1]
      rw [hred]
      exact ih seen recs htl hnd hin hpre hlen

theorem conceptRecommendations_inv (db : DB) (hwf : DBWF db) (node_id : String)
    (hcid : strStartsWith node_id "concept:" = true) (c : ConceptRec) :
    ((conceptRecommendations db node_id c).map GraphNode.id).Nodup ∧
    (∀ r ∈ conceptRecommendations db node_id c, r.id ≠ node_id) ∧
    (conceptRecommendations db node_id c).length ≤ 5 := by
  unfold conceptRecommendations
  by_cases he : ¬c.embedding.isEmpty = true
  · rw [if_pos he]
    have hvp := vectorPhaseConcept_inv (db.vector_search_docs c.embedding 30) [] []
      (fun p hp => hwf.search_docs_table c.embedding 30 p hp)
      (by simp) (by simp) (by simp) (by simp)
    by_cases hlt :
        (vectorPhaseConcept (db.vector_search_docs c.embedding 30) [] []).2.length < 5
    · rw [if_pos hlt]
      have hfb := conceptFallback_inv db hwf node_id db.get_all_mentions
        (List.map (fun r => r.id)
          (vectorPhaseConcept (db.vector_search_docs c.embedding 30) [] []).2)
        (vectorPhaseConcept (db.vector_search_docs c.embedding 30) [] []).2
        (fun m hm => hwf.mentions_in_doc m hm)
        hvp.1 (fun r hr => List.mem_map_of_mem _ hr) hvp.2.1 hlt
      exact ⟨hfb.1, fun r hr => docPref_ne_conceptPref (hfb.2.1 r hr) hcid, hfb.2.2⟩
    · rw [if_neg hlt]
      exact ⟨hvp.1, fun r hr => docPref_ne_conceptPref (hvp.2.1 r hr) hcid, hvp.2.2⟩
  · rw [if_neg he]
    rw [if_pos (by simp)]
    have hfb := conceptFallback_inv db hwf node_id db.get_all_mentions
      (List.map (fun r => r.id) ([] : List GraphNode)) []
      (fun m hm => hwf.mentions_in_doc m hm)
      (by simp) (by simp) (by simp) (by simp)
    exact ⟨hfb.1, fun r hr => docPref_ne_conceptPref (hfb.2.1 r hr) hcid, hfb.2.2⟩


/-- A one-document store with no embedding, no chunks and no mention edges,
exercising the graph-fallback scenario of the recommendation engine. -/
def c6dbDoc : DocRec := ⟨"doc:x", "X", "", "body", "text", []⟩

def c6db : DB :=
  ⟨fun i => if i = "doc:x" then some c6dbDoc else Option.none,
   fun _ => Option.none, fun _ => [], [], [], fun _ _ => []⟩

/-- C6: for every source node and graph topology (any well-formed store),
the recommendation list of `get_node_detail` never contains the source
node's own id, has no duplicate ids and has length at most five; and for a
document with no stored embedding, no chunks and no mentions edges the
detail is still returned, with an empty recommendation list, rather than an
error. -/
theorem c6_recommendation_invariants (db : DB) (hwf : DBWF db) (node_id : String) :
    (∀ detail, get_node_detail db node_id = some detail →
      ((detail.recommendations.map GraphNode.id).Nodup ∧
       (∀ r ∈ detail.recommendations, r.id ≠ node_id) ∧
       detail.recommendations.length ≤ 5)) ∧
    (∀ d, strStartsWith node_id "doc:" = true →
      db.get_doc node_id = some d →
      d.embedding = [] →
      db.get_chunks_by_doc node_id = [] →
      List.filter (fun m => record_to_id m.inVal = node_id) db.get_all_mentions = [] →
      get_node_detail db node_id = some ⟨format_node_doc d, d.content, []⟩) := by
  constructor
  · intro detail h
    unfold get_node_detail at h
    by_cases hd : strStartsWith node_id "doc:" = true
    · rw [if_pos hd] at h
      rcases Option.eq_none_or_eq_some (db.get_doc node_id) with hdoc | ⟨nd, hdoc⟩
      · rw [hdoc] at h
        exact Option.noConfusion h
      · rw [hdoc] at h
        have h2 : (⟨format_node_doc nd, nd.content,
            docRecommendations db node_id nd⟩ : NodeDetail) = detail := Option.some.inj h
        rw [← h2]
        exact docRecommendations_inv db hwf node_id nd
    · rw [if_neg hd] at h
      by_cases hc : strStartsWith node_id "concept:" = true
      · rw [if_pos hc] at h
        rcases Option.eq_none_or_eq_some (db.get_concept node_id) with hcc | ⟨cd, hcc⟩
        · rw [hcc] at h
          exact Option.noConfusion h
        · rw [hcc] at h
          have h2 : (⟨format_node_concept cd, cd.desc,
              conceptRecommendations db node_id cd⟩ : NodeDetail) = detail :=
            Option.some.inj h
          rw [← h2]
          exact conceptRecommendations_inv db hwf node_id hc cd
      · rw [if_neg hc] at h
        exact Option.noConfusion h
  · intro d hd hdoc hemb hchunks hfilter
    have hde : docEmbedding db node_id d = [] := by
      unfold docEmbedding
      rw [hemb, hchunks]
      simp
    have hrec : docRecommendations db node_id d = [] := by
      unfold docRecommendations
      rw [hde]
      unfold docRecsCore
      rw [if_neg (by simp)]
      show (fbOuter db node_id
        (List.map (fun m => record_to_id m.outVal)
          (List.filter (fun m => record_to_id m.inVal = node_id) db.get_all_mentions))
        db.get_all_mentions [] []).2 = []
      rw [hfilter]
      rfl
    unfold get_node_detail
    rw [if_pos hd, hdoc]
    refine Eq.trans (show _ = some (⟨format_node_doc d, d.content,
      docRecommendations db node_id d⟩ : NodeDetail) from rfl) ?_
    rw [hrec]

theorem c6_recommendation_invariants_witness :
    get_node_detail c6db "doc:x" = some ⟨format_node_doc c6dbDoc, "body", []⟩ := by
  have hwf : DBWF c6db := by
    refine ⟨?_, ?_, ?_⟩
    · intro emb lim p hp
      exact absurd (show p ∈ ([] : List (DocRec × Rat)) from hp) (List.not_mem_nil p)
    · intro i dd h
      have h2 : (if i = "doc:x" then some c6dbDoc else Option.none) = some dd := h
      by_cases hi : i = "doc:x"
      · rw [if_pos hi] at h2
        rw [hi, ← Option.some.inj h2]
        rfl
      · rw [if_neg hi] at h2
        exact Option.noConfusion h2
    · intro m hm
      exact absurd (show m ∈ ([] : List EdgeRec) from hm) (List.not_mem_nil m)
  exact (c6_recommendation_invariants c6db hwf "doc:x").2 c6dbDoc (by decide)
    (show (if ("doc:x" : String) = "doc:x" then some c6dbDoc else Option.none) =
      some c6dbDoc from if_pos rfl)
    rfl rfl rfl


theorem mem_neighborStep (cid : String) (acc : List String) (r : EdgeRec) (x : String) :
    x ∈ neighborStep cid acc r ↔ x ∈ acc ∨
      (record_to_id r.inVal = cid ∧ record_to_id r.outVal = x ∧ x ≠ cid) ∨
      (record_to_id r.outVal = cid ∧ record_to_id r.inVal = x ∧ x ≠ cid) := by
  unfold neighborStep
  show x ∈ (if record_to_id r.outVal = cid ∧ record_to_id r.inVal ≠ cid then
      (if record_to_id r.inVal = cid ∧ record_to_id r.outVal ≠ cid then
        acc ++ [record_to_id r.outVal] else acc) ++ [record_to_id r.inVal]
    else (if record_to_id r.inVal = cid ∧ record_to_id r.outVal ≠ cid then
        acc ++ [record_to_id r.outVal] else acc)) ↔ _
  by_cases h1 : record_to_id r.inVal = cid ∧ record_to_id r.outVal ≠ cid
  · rw [if_pos h1]
    by_cases h2 : record_to_id r.outVal = cid ∧ record_to_id r.inVal ≠ cid
    · exact absurd h1.1 h2.2
    · rw [if_neg h2, List.mem_append, List.mem_singleton]
      constructor
      · rintro (hx | hx)
        · exact Or.inl hx
        · exact Or.inr (Or.inl ⟨h1.1, hx.symm, fun hcid => h1.2 (hx.symm.trans hcid)⟩)
      · rintro (hx | ⟨hi, ho, hne⟩ | ⟨ho, hi, hne⟩)
        · exact Or.inl hx
        · exact Or.inr ho.symm
        · exact absurd (hi.symm.trans h1.1) hne
  · rw [if_neg h1]
    by_cases h2 : record_to_id r.outVal = cid ∧ record_to_id r.inVal ≠ cid
    · rw [if_pos h2, List.mem_append, List.mem_singleton]
      constructor
      · rintro (hx | hx)
        · exact Or.inl hx
        · exact Or.inr (Or.inr ⟨h2.1, hx.symm, fun hcid => h2.2 (hx.symm.trans hcid)⟩)
      · rintro (hx | ⟨hi, ho, hne⟩ | ⟨ho, hi, hne⟩)
        · exact Or.inl hx
        · have hoc : record_to_id r.outVal = cid := by
            by_contra hoc
            exact h1 ⟨hi, hoc⟩
          exact absurd (ho.symm.trans hoc) hne
        · exact Or.inr hi.symm
    · rw [if_neg h2]
      constructor
      · exact Or.inl
      · rintro (hx | ⟨hi, ho, hne⟩ | ⟨ho, hi, hne⟩)
        · exact hx
        · have hoc : record_to_id r.outVal = cid := by
            by_contra hoc
            exact h1 ⟨hi, hoc⟩
          exact absurd (ho.symm.trans hoc) hne
        · have hic : record_to_id r.inVal = cid := by
            by_contra hic
            exact h2 ⟨ho, hic⟩
          exact absurd (hi.symm.trans hic) hne

theorem mem_foldl_neighborStep (cid : String) :
    ∀ (rs : List EdgeRec) (acc : List String) (x : String),
    x ∈ rs.foldl (neighborStep cid) acc ↔ x ∈ acc ∨
      ∃ r ∈ rs,
        (record_to_id r.inVal = cid ∧ record_to_id r.outVal = x ∧ x ≠ cid) ∨
        (record_to_id r.outVal = cid ∧ record_to_id r.inVal = x ∧ x ≠ cid) := by
  intro rs
  induction rs with
  | nil =>
    intro acc x
    simp
  | cons r rest ih =>
    intro acc x
    rw [List.foldl_cons, ih, mem_neighborStep]
    constructor
    · rintro ((hx | hr) | ⟨e, he, hcond⟩)
      · exact Or.inl hx
      · exact Or.inr ⟨r, List.mem_cons_self _ _, hr⟩
      · exact Or.inr ⟨e, List.mem_cons_of_mem _ he, hcond⟩
    · rintro (hx | ⟨e, he, hcond⟩)
      · exact Or.inl (Or.inl hx)
      · rcases List.mem_cons.mp he with he | he
        · subst he
          exact Or.inl (Or.inr hcond)
        · exact Or.inr ⟨e, he, hcond⟩

theorem mem_neighborsRaw (db : DB) (cid : String) (x : String) :
    x ∈ neighborsRaw db cid ↔
      ∃ r ∈ db.get_all_related,
        (record_to_id r.inVal = cid ∧ record_to_id r.outVal = x ∧ x ≠ cid) ∨
        (record_to_id r.outVal = cid ∧ record_to_id r.inVal = x ∧ x ≠ cid) := by
  unfold neighborsRaw
  rw [mem_foldl_neighborStep]
  simp

theorem dedupGo_sublist : ∀ (xs seen : List String), (dedupGo seen xs).Sublist xs := by
  intro xs
  induction xs with
  | nil =>
    intro seen
    simp [dedupGo]
  | cons y rest ih =>
    intro seen
    simp only [dedupGo]
    by_cases hy : y ∈ seen
    · rw [if_pos hy]
      exact (ih seen).trans (List.sublist_cons_self y rest)
    · rw [if_neg hy]
      exact (ih (seen ++ [y])).cons₂ y

theorem mem_dedupGo : ∀ (xs seen : List String) (x : String),
    x ∈ dedupGo seen xs ↔ x ∈ xs ∧ x ∉ seen := by
  intro xs
  induction xs with
  | nil =>
    intro seen x
    simp [dedupGo]
  | cons y rest ih =>
    intro seen x
    simp only [dedupGo]
    by_cases hy : y ∈ seen
    · rw [if_pos hy, ih]
      constructor
      · rintro ⟨hx, hns⟩
        exact ⟨List.mem_cons_of_mem _ hx, hns⟩
      · rintro ⟨hx, hns⟩
        rcases List.mem_cons.mp hx with hx | hx
        · subst hx
          exact absurd hy hns
        · exact ⟨hx, hns⟩
    · rw [if_neg hy]
      constructor
      · intro hx
        rcases List.mem_cons.mp hx with hx | hx
        · subst hx
          exact ⟨List.mem_cons_self _ _, hy⟩
        · rw [ih] at hx
          refine ⟨List.mem_cons_of_mem _ hx.1, ?_⟩
          intro hs
          exact hx.2 (List.mem_append.mpr (Or.inl hs))
      · rintro ⟨hx, hns⟩
        by_cases hxy : x = y
        · subst hxy
          exact List.mem_cons_self _ _
        · have hx2 : x ∈ rest := by
            rcases List.mem_cons.mp hx with h | h
            · exact absurd h hxy
            · exact h
          apply List.mem_cons_of_mem
          rw [ih]
          refine ⟨hx2, ?_⟩
          intro hs
          rcases List.mem_append.mp hs with hs | hs
          · exact hns hs
          · rw [List.mem_singleton] at hs
            exact hxy hs

theorem dedupGo_nodup : ∀ (xs seen : List String), (dedupGo seen xs).Nodup := by
  intro xs
  induction xs with
  | nil =>
    intro seen
    simp [dedupGo]
  | cons y rest ih =>
    intro seen
    simp only [dedupGo]
    by_cases hy : y ∈ seen
    · rw [if_pos hy]
      exact ih seen
    · rw [if_neg hy]
      rw [List.nodup_cons]
      refine ⟨?_, ih (seen ++ [y])⟩
      intro hmem
      rw [mem_dedupGo] at hmem
      exact hmem.2 (List.mem_append.mpr (Or.inr (List.mem_singleton.mpr rfl)))

/-- A two-concept store with one `related` edge into the queried concept,
exercising the inverse-direction neighbor traversal. -/
def c9concept : ConceptRec := ⟨"concept:a", "A", "about A", []⟩

def c9db : DB :=
  ⟨fun _ => Option.none,
   fun i => if i = "concept:a" then some c9concept else Option.none,
   fun _ => [], [],
   [⟨PyVal.str "concept:b", PyVal.str "concept:a", Option.none⟩],
   fun _ _ => []⟩

/-- C9: for a concept that exists in the store, `get_concept_details`
renders the documents reached through inverse `mentions` edges (each line
built with the summary truncated to its first 300 characters when longer)
together with the neighbor concepts reached through `related` edges in
either direction; the neighbor list excludes self-loops, is deduplicated
preserving first-seen order, and both rendered lists are capped at 20
entries. -/
theorem c9_concept_context (db : DB) (cid : String) (concept : ConceptRec)
    (hc : db.get_concept cid = some concept) :
    get_concept_details db cid =
      "## Concept: " ++ concept.name ++ "\n\n**Description:** " ++ concept.desc ++
      "\n\n**Mentioned in " ++ toString (relatedDocsOfConcept db cid).length ++
      " documents:**\n" ++
      String.join (((relatedDocsOfConcept db cid).take 20).map (conceptDocLine db)) ++
      (if ¬(neighborsOfConcept db cid).isEmpty then
        "\n**Related Concepts:**\n" ++
          String.join (((neighborsOfConcept db cid).take 20).map (conceptNeighborLine db))
      else "") ∧
    (∀ x, x ∈ relatedDocsOfConcept db cid ↔
      ∃ m ∈ db.get_all_mentions,
        record_to_id m.outVal = cid ∧ record_to_id m.inVal = x) ∧
    (∀ s : String, (s.length ≤ 300 → summaryShort s = s) ∧
      (300 < s.length →
        summaryShort s = s.take 300 ++ "..." ∧ (s.take 300).length = 300)) ∧
    cid ∉ neighborsOfConcept db cid ∧
    (neighborsOfConcept db cid).Nodup ∧
    (neighborsOfConcept db cid).Sublist (neighborsRaw db cid) ∧
    (∀ x, x ∈ neighborsOfConcept db cid ↔ x ∈ neighborsRaw db cid) ∧
    (∀ x, x ∈ neighborsRaw db cid →
      x ≠ cid ∧ ∃ r ∈ db.get_all_related,
        (record_to_id r.inVal = cid ∧ record_to_id r.outVal = x) ∨
        (record_to_id r.outVal = cid ∧ record_to_id r.inVal = x)) ∧
    ((relatedDocsOfConcept db cid).take 20).length ≤ 20 ∧
    ((neighborsOfConcept db cid).take 20).length ≤ 20 := by
  refine ⟨?_, ?_, ?_, ?_, ?_, ?_, ?_, ?_, ?_, ?_⟩
  · unfold get_concept_details
    rw [hc]
  · intro x
    unfold relatedDocsOfConcept
    rw [List.mem_map]
    constructor
    · rintro ⟨m, hm, hin⟩
      rw [List.mem_filter] at hm
      exact ⟨m, hm.1, of_decide_eq_true hm.2, hin⟩
    · rintro ⟨m, hm, hout, hin⟩
      exact ⟨m, List.mem_filter.mpr ⟨hm, decide_eq_true hout⟩, hin⟩
  · intro s
    constructor
    · intro h
      unfold summaryShort
      rw [if_neg (by omega)]
    · intro h
      unfold summaryShort
      rw [if_pos h]
      refine ⟨rfl, ?_⟩
      rw [String.take_eq]
      show (s.data.take 300).length = 300
      rw [List.length_take]
      have h2 : 300 < s.data.length := h
      omega
  · intro hmem
    have hmem2 : cid ∈ dedupGo [] (neighborsRaw db cid) := hmem
    have h3 := ((mem_dedupGo (neighborsRaw db cid) [] cid).mp hmem2).1
    rcases (mem_neighborsRaw db cid cid).mp h3 with ⟨r, hr, hcond⟩
    rcases hcond with ⟨h1, h2, hne⟩ | ⟨h1, h2, hne⟩
    · exact hne rfl
    · exact hne rfl
  · exact dedupGo_nodup (neighborsRaw db cid) []
  · exact dedupGo_sublist (neighborsRaw db cid) []
  · intro x
    constructor
    · intro h
      exact ((mem_dedupGo (neighborsRaw db cid) [] x).mp h).1
    · intro h
      exact (mem_dedupGo (neighborsRaw db cid) [] x).mpr ⟨h, List.not_mem_nil x⟩
  · intro x hx
    rcases (mem_neighborsRaw db cid x).mp hx with ⟨r, hr, hcond⟩
    rcases hcond with ⟨h1, h2, h3⟩ | ⟨h1, h2, h3⟩
    · exact ⟨h3, r, hr, Or.inl ⟨h1, h2⟩⟩
    · exact ⟨h3, r, hr, Or.inr ⟨h1, h2⟩⟩
  · rw [List.length_take]
    exact min_le_left _ _
  · rw [List.length_take]
    exact min_le_left _ _

theorem c9_concept_context_witness :
    c9db.get_concept "concept:a" = some c9concept ∧
    "concept:a" ∉ neighborsOfConcept c9db "concept:a" ∧
    neighborsOfConcept c9db "concept:a" = ["concept:b"] := by
  have hc : c9db.get_concept "concept:a" = some c9concept :=
    show (if ("concept:a" : String) = "concept:a" then some c9concept
      else Option.none) = some c9concept from if_pos rfl
  exact ⟨hc, (c9_concept_context c9db "concept:a" c9concept hc).2.2.2.1, by rfl⟩


end MarkMind
